import Mathlib

set_option maxRecDepth 10000

unseal Rat.add Rat.mul Rat.sub Rat.inv Rat.ofScientific

/-!
Shallow embedding of `lasif/window_selection.py` (window selection algorithm
for seismic waveform misfit measurements) together with proofs about the
properties claimed by its specification.

Signal samples are modelled as rationals (`ℚ`); the Python code operates on
floating point arrays, but every claim under study concerns only comparisons,
sums of products and exact halving, all of which the code performs on values
whose relationships are preserved by the rational model.  Sample indices are
`Nat`; quantities that Python computes as possibly negative ints are `Int`.
Functions that can raise an uncaught Python exception are modelled with an
`Option` result (`none` = the call raises).
-/

/-- Python 2 `round` (half away from zero), composed with `int(...)` as the
source always does: `int(round(q))`. -/
def pyRound (q : ℚ) : Int :=
  if 0 ≤ q then ⌊q + 1/2⌋ else ⌈q - 1/2⌉

/-- Python slice extraction `l[a:b]` (step 1): negative bounds are taken from
the end of the list, then both bounds are clamped to `[0, len]`. -/
def pySlice {α : Type} (l : List α) (a b : Int) : List α :=
  let n : Int := l.length
  let a' := if a < 0 then max (a + n) 0 else min a n
  let b' := if b < 0 then max (b + n) 0 else min b n
  (l.drop a'.toNat).take (b'.toNat - a'.toNat)

/-- Numpy slice assignment `l[a:b] = v` (step 1), with Python's normalization
of negative bounds. -/
def pySliceSet {α : Type} (l : List α) (a b : Int) (v : α) : List α :=
  let n : Int := l.length
  let a' := if a < 0 then max (a + n) 0 else min a n
  let b' := if b < 0 then max (b + n) 0 else min b n
  l.mapIdx (fun i x => if a'.toNat ≤ i ∧ (i : Int) < b' then v else x)

/-- Plain non-negative slice `l[a:b]` for `Nat` bounds (no wrap-around can
occur). -/
def sliceN {α : Type} (l : List α) (a b : Nat) : List α :=
  (l.drop a).take (b - a)

/-- Numpy `np.abs(l).max()`: `none` on an empty array (numpy raises
`ValueError`). -/
def npAbsMax (l : List ℚ) : Option ℚ :=
  match l.map (fun x => |x|) with
  | [] => none
  | x :: xs => some (xs.foldl max x)

/-- Total variant of `np.abs(l).max()`; agrees with `npAbsMax` on every
non-empty list (all mapped values are `≥ 0`) and returns `0` on the empty
list.  Used only where the source applies it to slices that are provably
non-empty. -/
def absMaxQ (l : List ℚ) : ℚ :=
  l.foldl (fun m x => max m |x|) 0

/-- Numpy `(l ** 2).sum()`: the "energy" of a window. -/
def energyQ (l : List ℚ) : ℚ :=
  l.foldl (fun s x => s + x * x) 0

/-- Numpy `np.diff` on an integer index array (entries can be negative). -/
def npDiff (l : List Nat) : List Int :=
  List.zipWith (fun a b => (a : Int) - (b : Int)) (l.drop 1) l

/-- Elementwise boolean `&` of two numpy arrays; numpy raises a broadcast
error when the lengths differ (and neither is 1; the length-1 case is never
reached in this code because a 1-sample trace aborts earlier). -/
def npAnd (a b : List Bool) : Option (List Bool) :=
  if a.length = b.length then some (List.zipWith and a b) else none

/-!
## `find_local_extrema`

`peaks = np.r_[True, data[1:] > data[:-1]] & np.r_[data[:-1] > data[1:], True]`
(and the `<` version for troughs), then indices `≥ start_index` are kept.
The internal-consistency guard `if np.intersect1d(peaks, troughs, ...)` tests
the *truthiness of a numpy array*: an empty intersection is falsy, a
one-element intersection is as truthy as its single element, and an
intersection with two or more elements raises `ValueError`.  Both the
`Exception` branch and the `ValueError` are modelled as `none`.
-/

/-- Boolean peak flags of `find_local_extrema` (the trough flags use the
mirrored comparison).  For an empty array, `np.r_[True, ...]` still has one
element, which the model reproduces. -/
def extremaFlags (cmp : ℚ → ℚ → Bool) (data : List ℚ) : List Bool :=
  List.zipWith and
    (true :: List.zipWith (fun a b => cmp a b) (data.drop 1) data)
    (List.zipWith (fun a b => cmp a b) data (data.drop 1) ++ [true])

/-- Indices (ascending) at which a flag list is `true`: `np.where(flags)[0]`. -/
def whereTrue (flags : List Bool) : List Nat :=
  (List.range flags.length).filter (fun i => flags.getD i false)

/-- `find_local_extrema(data, start_index)`; returns
`(peaks, troughs, extrema)` or `none` when the function raises. -/
def find_local_extrema (data : List ℚ) (start_index : Nat) :
    Option (List Nat × List Nat × List Nat) :=
  let peaks := (whereTrue (extremaFlags (fun a b => b < a) data)).filter
    (fun i => start_index ≤ i)
  let troughs := (whereTrue (extremaFlags (fun a b => a < b) data)).filter
    (fun i => start_index ≤ i)
  let inter := peaks.filter (fun i => troughs.contains i)
  match inter with
  | [] => some (peaks, troughs, List.insertionSort (fun a b => a ≤ b) (peaks ++ troughs))
  | [x] =>
    if x = 0 then
      some (peaks, troughs, List.insertionSort (fun a b => a ≤ b) (peaks ++ troughs))
    else none
  | _ :: _ :: _ => none

/-!
## `complete_index_distance`

The numpy array under construction is modelled as a total function
`Nat → ℚ` (slice writes update ranges, scalar writes update one point); the
final result reads the first `final_length` positions.  `np.empty` leaves the
array uninitialized; the model starts from the constant `0`, and every claim
about this function only concerns positions that the writes cover.  A scalar
write `arr[i] = v` with `i ≥ final_length` raises `IndexError` (`none`);
slice writes clamp silently.
-/

/-- Range write `f[a:b] = v` on the functional array model. -/
def updRange (f : Nat → ℚ) (a b : Nat) (v : ℚ) : Nat → ℚ :=
  fun j => if a ≤ j ∧ j < b then v else f j

/-- Point write `f[i] = v` on the functional array model. -/
def updAt (f : Nat → ℚ) (i : Nat) (v : ℚ) : Nat → ℚ :=
  fun j => if j = i then v else f j

/-- The last two elements of a list (`indices[-2]`, `indices[-1]`);
`none` when fewer than two exist (Python raises `IndexError`). -/
def lastTwo : List Nat → Option (Nat × Nat)
  | [a, b] => some (a, b)
  | _ :: b :: rest => lastTwo (b :: rest)
  | _ => none

/-- The `left_distance` of the middle loop: the gap to the previous index,
or `left + 1` on the first iteration. -/
def leftGap (prev : Option Nat) (l : Nat) : ℚ :=
  match prev with
  | none => (l : ℚ) + 1
  | some p => (l : ℚ) - (p : ℚ)

/-- The middle loop of `complete_index_distance`: for every consecutive pair
`(left, right)` write `right - left` on `[left, right]` and then the average
of the two neighbouring gaps at `left` itself.  `prev` is `indices[_i - 1]`
(`none` on the first iteration, where `left + 1` is used instead). -/
def cidMid (n : Nat) : Option Nat → (Nat → ℚ) → List Nat → Option (Nat → ℚ)
  | _, f, [] => some f
  | _, f, [_] => some f
  | prev, f, l :: r :: rest =>
    if l < n then
      let rd : ℚ := (r : ℚ) - (l : ℚ)
      let ld : ℚ := leftGap prev l
      cidMid n (some l) (updAt (updRange f l (r + 1) rd) l ((rd + ld) * (1/2)))
        (r :: rest)
    else none

/-- `complete_index_distance(indices, final_length)`; `none` when the Python
function raises (`indices` empty: `indices[0]`; one element: `indices[-2]`;
a scalar write out of bounds: `IndexError`). -/
def complete_index_distance (indices : List Nat) (final_length : Nat) :
    Option (List ℚ) :=
  match indices with
  | [] => none
  | first :: rest =>
    let f0 : Nat → ℚ := fun _ => 0
    let f1 := updRange f0 0 first ((first : ℚ) + 1)
    (cidMid final_length none f1 (first :: rest)).bind fun f2 =>
      (lastTwo (first :: rest)).bind fun pl =>
        let fd : ℚ := (final_length : ℚ) - (pl.2 : ℚ)
        let f3 := updRange f2 (pl.2 + 1) final_length fd
        if pl.2 < final_length then
          some ((List.range final_length).map
            (updAt f3 pl.2 ((fd + ((pl.2 : ℚ) - (pl.1 : ℚ))) * (1/2))))
        else none

/-!
## `find_ones`

Generator yielding `(first, last)` index pairs (both inclusive) of maximal
runs of the value `1`.  After the loop the source tests `if start_index:`,
which is falsy both for `None` and for the *number zero* — a trailing run
that starts at index 0 is silently dropped.
-/

/-- The scanning loop of `find_ones`; `idx` is the index of the head of `l`
in the original array, `start` the start of the currently open run. -/
def find_ones_aux : List Int → Option Nat → Nat → List (Nat × Nat)
  | [], none, _ => []
  | [], some s, idx => if s = 0 then [] else [(s, idx - 1)]
  | v :: rest, none, idx =>
    if v = 1 then find_ones_aux rest (some idx) (idx + 1)
    else find_ones_aux rest none (idx + 1)
  | v :: rest, some s, idx =>
    if v = 1 then find_ones_aux rest (some s) (idx + 1)
    else (s, idx - 1) :: find_ones_aux rest none (idx + 1)

/-- `find_ones(data)`, collected into a list. -/
def find_ones (data : List Int) : List (Nat × Nat) :=
  find_ones_aux data none 0

/-!
## `find_closest`

`idx = ref.searchsorted(target); idx = np.clip(idx, 1, len(ref)-1);`
`idx -= target - ref[idx-1] < ref[idx] - target`.
`searchsorted` (side `left`) on a sorted array returns the leftmost
insertion index, i.e. the number of elements strictly below the target.
-/

/-- `np.searchsorted(l, t)` (side `left`) for a sorted list. -/
def searchsorted (l : List ℚ) (t : ℚ) : Nat :=
  match l with
  | [] => 0
  | x :: xs => if t ≤ x then 0 else searchsorted xs t + 1

/-- `find_closest(ref_array, target)`: for each target value, the index of
the closest entry of `ref_array` (ties kept at the larger index, since
`idx` is decremented only on a strict comparison). -/
def find_closest (ref : List ℚ) (target : List ℚ) : List Nat :=
  target.map fun t =>
    let idx := min (max (searchsorted ref t) 1) (ref.length - 1)
    let left := ref.getD (idx - 1) 0
    let right := ref.getD idx 0
    if t - left < right - t then idx - 1 else idx

/-!
## `skip_finder`

For every maximal run of `+1` steps in the nearest-index difference
sequence, a sample window is produced by averaging the two synthetic indices
around each run boundary (`ceil` on the left, `floor` on the right; at an
array border the Python slice silently shrinks, so the "average" degenerates
to half of a single index, or to zero for an empty slice).
-/

/-- Sum of a `Nat` list as a rational. -/
def sumQ (l : List Nat) : ℚ :=
  l.foldl (fun s x => s + (x : ℚ)) 0

/-- `skip_finder(d, s)`, collected into a list of `(left_idx, right_idx)`
pairs (Python ints). -/
def skip_finder (d s : List Nat) : List (Int × Int) :=
  (find_ones (npDiff (find_closest (d.map (fun i => (i : ℚ)))
      (s.map (fun i => (i : ℚ)))))).map fun mm =>
    (⌈sumQ (pySlice s ((mm.1 : Int) - 1) ((mm.1 : Int) + 1)) * (1/2)⌉,
     ⌊sumQ (pySlice s ((mm.2 : Int) + 1) ((mm.2 : Int) + 3)) * (1/2)⌋)


/-!
## Traces and the two window assemblers

An obspy `Trace` couples a sample array with a metadata dictionary; the
fields relevant here are `delta` (sample spacing) and the two entries that
`select_windows` *adds* to the data trace's metadata (`first_valid_index`,
`noise_level`; absent before the call, hence `Option`).  `stats.npts` is kept
synchronized with `len(data)` by obspy, so the model derives it as
`data.length`.  The travel-time lookup (obspy TauP + geodesy) is an external
collaborator; its result enters `select_windows` as the already-converted
sample index `first_valid_index`, and `select_windows_2` as the raw
`first_tt_arrival` / `dist_in_km` values.
-/

structure TraceStats where
  delta : ℚ
  first_valid_index : Option Nat
  noise_level : Option ℚ
deriving DecidableEq, Repr

structure Trace where
  data : List ℚ
  stats : TraceStats
deriving DecidableEq, Repr

/-!
`np.ma.flatnotmasked_contiguous` (numpy of the code's era) groups the mask
and returns one `slice(start, stop)` per maximal unmasked run — or `None`
when everything is masked, in which case the `for` loop over it raises
`TypeError`.  The model computes the list of maximal `true` runs of the
validity array (`true` = unmasked / valid) as half-open pairs.
-/

/-- Scanning loop producing maximal `true` runs as half-open `(start, stop)`
pairs; `idx` is the absolute position of the head of `l`, `st` the start of
the currently open run. -/
def true_runs_aux : List Bool → Nat → Option Nat → List (Nat × Nat)
  | [], _, none => []
  | [], idx, some s => [(s, idx)]
  | b :: rest, idx, none =>
    if b then true_runs_aux rest (idx + 1) (some idx)
    else true_runs_aux rest (idx + 1) none
  | b :: rest, idx, some s =>
    if b then true_runs_aux rest (idx + 1) (some s)
    else (s, idx) :: true_runs_aux rest (idx + 1) none

/-- Maximal `true` runs of a validity list. -/
def true_runs (m : List Bool) : List (Nat × Nat) :=
  true_runs_aux m 0 none

/-- The boolean `window_mask` computed by `select_windows` (source lines
449–498): start all-valid, invalidate everything before `first_valid_index`,
compute the six inter-extrema distance curves (their values feed only the
commented-out wiggliness mask, but computing them can still raise, which is
why they are bound here), then AND in the union of the `skip_finder` windows
for peaks and for troughs. -/
def select_windows_mask (data synth : List ℚ) (first_valid_index : Nat) :
    Option (List Bool) :=
  let npts := synth.length
  (find_local_extrema data first_valid_index).bind fun de =>
  (find_local_extrema synth first_valid_index).bind fun se =>
  (complete_index_distance de.1 npts).bind fun _peak_distance_data =>
  (complete_index_distance se.1 npts).bind fun _peak_distance_synth =>
  (complete_index_distance de.2.1 npts).bind fun _trough_distance_data =>
  (complete_index_distance se.2.1 npts).bind fun _trough_distance_synth =>
  (complete_index_distance de.2.2 npts).bind fun _extrema_distance_data =>
  (complete_index_distance se.2.2 npts).bind fun _extrema_distance_synth =>
  let window_mask := (List.range data.length).map
    (fun i => decide (first_valid_index ≤ i))
  let inverse1 := (skip_finder de.1 se.1).foldl
    (fun m w => pySliceSet m w.1 w.2 true) (List.replicate npts false)
  (npAnd window_mask inverse1).bind fun wm1 =>
  let inverse2 := (skip_finder de.2.1 se.2.1).foldl
    (fun m w => pySliceSet m w.1 w.2 true) (List.replicate npts false)
  (npAnd wm1 inverse2).bind fun wm2 =>
  some wm2

/-- One acceptance step of the final loop of `select_windows`: append the
window, or merge it into the previous one when it starts exactly one sample
after that window's stop. -/
def window_accept_step (acc : List (Nat × Nat)) (w : Nat × Nat) :
    List (Nat × Nat) :=
  match acc.getLast? with
  | some lw =>
    if lw.2 + 1 = w.1 then acc.dropLast ++ [(lw.1, w.2)] else acc ++ [w]
  | none => acc ++ [w]

/-- One iteration of the final selection loop of `select_windows` (source
lines 500–532): reject the run if it is shorter than the minimum window
length, if its peak amplitude in either signal is below `5 * noise_level`,
or if its two energies differ by more than a factor of 10; otherwise accept
it (merging it into the previous window when directly adjacent). -/
def assemble_step (data synth : List ℚ) (min_window_length : Int)
    (noise_level : ℚ) (acc : List (Nat × Nat)) (w : Nat × Nat) :
    List (Nat × Nat) :=
  if ((w.2 - w.1 : Nat) : Int) < min_window_length then acc
  else if absMaxQ (sliceN data w.1 w.2) < 5 * noise_level ∨
      absMaxQ (sliceN synth w.1 w.2) < 5 * noise_level then acc
  else
    let data_energy := energyQ (sliceN data w.1 w.2)
    let synth_energy := energyQ (sliceN synth w.1 w.2)
    if 10 * min data_energy synth_energy <
        max data_energy synth_energy then acc
    else window_accept_step acc w

/-- The final selection loop of `select_windows`. -/
def assemble_windows (data synth : List ℚ) (min_window_length : Int)
    (noise_level : ℚ) (runs : List (Nat × Nat)) : List (Nat × Nat) :=
  runs.foldl (assemble_step data synth min_window_length noise_level) []

/-- `select_windows(data_trace, synthetic_trace, ...)` (the extrema-based
variant).  The travel-time collaborator is abstracted into the
`first_valid_index` parameter.  Returns the window list together with the
two traces as they stand after the call — the source *writes*
`first_valid_index` and `noise_level` into `data_trace.stats` (lines
445–446).  `none` models an uncaught exception (empty pre-arrival noise
slice, an extrema list too short for a distance curve, mismatched mask
lengths, or `flatnotmasked_contiguous` returning `None`). -/
def select_windows (data_trace synthetic_trace : Trace)
    (first_valid_index : Nat) (dominant_period : ℚ) :
    Option (List (Nat × Nat) × Trace × Trace) :=
  let min_window_length := pyRound (dominant_period / synthetic_trace.stats.delta)
  (npAbsMax (data_trace.data.take first_valid_index)).bind fun noise_level =>
  let data_trace' : Trace :=
    { data_trace with stats :=
      { data_trace.stats with
        first_valid_index := some first_valid_index
        noise_level := some noise_level } }
  (select_windows_mask data_trace.data synthetic_trace.data
      first_valid_index).bind fun mask =>
  match true_runs mask with
  | [] => none
  | r :: rs =>
    some (assemble_windows data_trace.data synthetic_trace.data
        min_window_length noise_level (r :: rs),
      data_trace', synthetic_trace)

/-!
## `select_windows_2` (sliding cross-correlation variant)

The sliding correlation loop (source lines 317–348) computes a Hann taper,
cross-correlations and square roots in floating point; its two resulting
masked curves (`sliding_time_shift`, `max_cc_coeff`, populated only at
window midpoints) are taken as parameters (`none` = masked entry).  Every
step from line 350 on — the seven masking passes and the final filter — is
embedded exactly; the theorems below therefore hold for every possible value
of the two curves, in particular for the ones the correlation loop computes.
A comparison against a masked entry selects nothing (numpy masked
semantics), and `np.ma.where` skips masked entries.
-/

/-- Difference curve `np.diff` on a masked array: entry `i` is
`c[i+1] - c[i]`, masked when either operand is masked. -/
def maskedDiff (c : List (Option ℚ)) : List (Option ℚ) :=
  List.zipWith
    (fun a b => match a, b with
      | some x, some y => some (x - y)
      | _, _ => none)
    (c.drop 1) c

/-- One iteration of the final selection loop of `select_windows_2` (source
lines 386–397): reject the run if it is shorter than `min_length` or if its
two energies differ by more than a factor of 10; no merge pass. -/
def assemble_step_2 (data synth : List ℚ) (min_length : ℚ)
    (acc : List (Nat × Nat)) (w : Nat × Nat) : List (Nat × Nat) :=
  if ((w.2 - w.1 : Nat) : ℚ) < min_length then acc
  else
    let data_energy := energyQ (sliceN data w.1 w.2)
    let synth_energy := energyQ (sliceN synth w.1 w.2)
    if 10 * min data_energy synth_energy <
        max data_energy synth_energy then acc
    else acc ++ [w]

/-- The final selection loop of `select_windows_2`. -/
def assemble_windows_2 (data synth : List ℚ) (min_length : ℚ)
    (runs : List (Nat × Nat)) : List (Nat × Nat) :=
  runs.foldl (assemble_step_2 data synth min_length) []

/-- The seven masking passes of `select_windows_2` (source lines 350–381),
producing the final `time_windows.mask` (`true` = masked/invalid). -/
def select_windows_2_mask (npts : Nat) (dt first_tt_arrival dist_in_km
    dominant_period : ℚ) (sliding_time_shift max_cc_coeff : List (Option ℚ)) :
    List Bool :=
  let threshold_travel_time : ℚ := 2
  -- Step 1: all samples start unmasked (mask value `false`).
  let mask0 : List Bool := List.replicate npts false
  -- Step 2: mask everything before the first arrival minus half a period.
  let mask2 := pySliceSet mask0 0
    ⌈(first_tt_arrival - dominant_period * (1/2)) / dt⌉ true
  -- Step 3: mask everything after the surface-wave cutoff.
  let mask3 := pySliceSet mask2 ⌊dist_in_km / threshold_travel_time / dt⌋
    (npts : Int) true
  -- Step 4: mask samples with |time shift| > 0.2 (period fraction).
  let mask4 := mask3.mapIdx (fun i b =>
    b || (match sliding_time_shift.getD i none with
      | some v => decide (|v| > 1/5)
      | none => false))
  -- Step 5: mask a buffer around every time-shift jump > 0.1.
  let sample_buffer := ⌈dominant_period / dt * (1/10)⌉
  let jump_indices := (List.range (maskedDiff sliding_time_shift).length).filter
    (fun i => match (maskedDiff sliding_time_shift).getD i none with
      | some v => decide (|v| > 1/10)
      | none => false)
  let mask5 := jump_indices.foldl
    (fun m i => pySliceSet m ((i : Int) - sample_buffer)
      ((i : Int) + sample_buffer) true) mask4
  -- Step 6: mask samples with correlation coefficient below 0.7.
  mask5.mapIdx (fun i b =>
    b || (match max_cc_coeff.getD i none with
      | some v => decide (v < 7/10)
      | none => false))

/-- `select_windows_2(data_trace, synthetic_trace, ...)`.  External
collaborators abstracted into parameters: `first_tt_arrival` (TauP),
`dist_in_km` (Vincenty), and the two sliding-correlation curves.  Returns
the window list and the two (unmodified) traces; `none` models the
`TypeError` raised by iterating over `flatnotmasked_contiguous`'s `None`
when every sample is masked. -/
def select_windows_2 (data_trace synthetic_trace : Trace)
    (first_tt_arrival dist_in_km dominant_period : ℚ)
    (sliding_time_shift max_cc_coeff : List (Option ℚ)) :
    Option (List (Nat × Nat) × Trace × Trace) :=
  let dt := synthetic_trace.stats.delta
  let npts := synthetic_trace.data.length
  let mask6 := select_windows_2_mask npts dt first_tt_arrival dist_in_km
    dominant_period sliding_time_shift max_cc_coeff
  -- Step 7: extract valid runs and filter them.
  let min_length := dominant_period / dt * (1/2)
  match true_runs (mask6.map not) with
  | [] => none
  | r :: rs =>
    some (assemble_windows_2 data_trace.data synthetic_trace.data
        min_length (r :: rs),
      data_trace, synthetic_trace)

/-!
## Concrete instances

A 40-sample pair of traces (sample spacing 1, dominant period 2,
`first_valid_index = 1`) on which `select_windows` runs to completion.  Its
two maximal valid runs `[5,13)` and `[14,25)` each pass every per-run check,
and the second starts exactly one sample after the first stops, so the final
pass merges them into the single window `(5, 25)` — which straddles the
large data excursion at sample 13.
-/

def exDataSig : List ℚ :=
  [0, -1, -2, -3, -2, -1, -2, -3, -4, -3, -2, -3, -4, -50, -6, -5, -4, -5,
   -6, -7, -8, -7, -6, -5, -4, -5, -6, -7, -8, -7, -6, -5, -4, -3, -2, -1,
   0, 1, 2, 3]

def exSynthSig : List ℚ :=
  [2, 1, 0, 1, -3, 0, 3, 0, -3, 0, 3, 0, -3, 3, 0, -3, 0, 3, 2, 1, 0, 1, 2,
   3, 2, 1, 0, -1, 0, -1, 0, 1, 2, 3, 4, 5, 6, 7, 8, 9]

def exDataTrace : Trace := ⟨exDataSig, ⟨1, none, none⟩⟩

def exSynthTrace : Trace := ⟨exSynthSig, ⟨1, none, none⟩⟩

/-- `exDataTrace` as `select_windows` leaves it: the call stored the
first-valid index and the noise level into its metadata. -/
def exDataTraceM : Trace := ⟨exDataSig, ⟨1, some 1, some 0⟩⟩

/-!
# Helper lemmas

Facts about `extremaFlags` / `find_local_extrema` membership used by several
claims.
-/

lemma extremaFlags_length (cmp : ℚ → ℚ → Bool) (data : List ℚ)
    (h : data ≠ []) : (extremaFlags cmp data).length = data.length := by
  cases data with
  | nil => exact absurd rfl h
  | cons x xs =>
    simp only [extremaFlags, List.length_zipWith, List.length_cons,
      List.length_append, List.length_drop, List.drop_one, List.tail_cons,
      List.length_singleton]
    omega

lemma getElem?_zipWith_eq_some {α β γ : Type} {f : α → β → γ}
    {as : List α} {bs : List β} {i : Nat} {a : α} {b : β}
    (ha : as[i]? = some a) (hb : bs[i]? = some b) :
    (List.zipWith f as bs)[i]? = some (f a b) := by
  rw [List.getElem?_zipWith, ha, hb]

lemma getElem?_eq_some_getD {α : Type} (l : List α) (i : Nat) (d : α)
    (h : i < l.length) : l[i]? = some (l.getD i d) := by
  rw [List.getD_eq_getElem?_getD, List.getElem?_eq_getElem h]
  simp

lemma extremaFlags_getD (cmp : ℚ → ℚ → Bool) (data : List ℚ) (i : Nat)
    (h : i < data.length) :
    (extremaFlags cmp data).getD i false =
      ((decide (i = 0) || cmp (data.getD i 0) (data.getD (i - 1) 0)) &&
       (decide (i = data.length - 1) ||
        cmp (data.getD i 0) (data.getD (i + 1) 0))) := by
  have hA : (true :: List.zipWith (fun a b => cmp a b) (data.drop 1) data)[i]? =
      some (decide (i = 0) || cmp (data.getD i 0) (data.getD (i - 1) 0)) := by
    cases i with
    | zero => simp
    | succ j =>
      have h1 : (data.drop 1)[j]? = some (data.getD (j + 1) 0) := by
        rw [List.getElem?_drop, Nat.add_comm 1 j]
        exact getElem?_eq_some_getD data (j + 1) 0 h
      have h2 : data[j]? = some (data.getD j 0) :=
        getElem?_eq_some_getD data j 0 (by omega)
      rw [List.getElem?_cons_succ, getElem?_zipWith_eq_some h1 h2]
      simp
  have hB : (List.zipWith (fun a b => cmp a b) data (data.drop 1) ++ [true])[i]? =
      some (decide (i = data.length - 1) ||
        cmp (data.getD i 0) (data.getD (i + 1) 0)) := by
    have hzl : (List.zipWith (fun a b => cmp a b) data (data.drop 1)).length =
        data.length - 1 := by
      simp only [List.length_zipWith, List.length_drop]
      omega
    rw [List.getElem?_append, hzl]
    by_cases hi : i < data.length - 1
    · have h1 : data[i]? = some (data.getD i 0) :=
        getElem?_eq_some_getD data i 0 h
      have h2 : (data.drop 1)[i]? = some (data.getD (i + 1) 0) := by
        rw [List.getElem?_drop, Nat.add_comm 1 i]
        exact getElem?_eq_some_getD data (i + 1) 0 (by omega)
      rw [if_pos hi, getElem?_zipWith_eq_some h1 h2]
      have hne : ¬(i = data.length - 1) := by omega
      simp [hne]
    · have hieq : i = data.length - 1 := by omega
      have hz : i - (data.length - 1) = 0 := by omega
      rw [if_neg hi, hz]
      simp [hieq]
  have hand := getElem?_zipWith_eq_some (f := and) hA hB
  rw [extremaFlags, List.getD_eq_getElem?_getD, hand]
  simp

lemma mem_extrema_filter (cmp : ℚ → ℚ → Bool) (data : List ℚ) (s i : Nat) :
    i ∈ (whereTrue (extremaFlags cmp data)).filter (fun j => decide (s ≤ j)) ↔
      i < (extremaFlags cmp data).length ∧
      (extremaFlags cmp data).getD i false = true ∧ s ≤ i := by
  simp only [whereTrue, List.mem_filter, List.mem_range, decide_eq_true_eq]
  tauto

/-- For a signal with at least two samples the strict comparisons make the
peak flag and the trough flag of any one index mutually exclusive, so the
internal-consistency branch is never taken and `find_local_extrema`
succeeds. -/
lemma find_local_extrema_eq_some (data : List ℚ) (s : Nat)
    (h2 : 2 ≤ data.length) :
    find_local_extrema data s =
      some ((whereTrue (extremaFlags (fun a b => decide (b < a)) data)).filter
          (fun i => decide (s ≤ i)),
        (whereTrue (extremaFlags (fun a b => decide (a < b)) data)).filter
          (fun i => decide (s ≤ i)),
        List.insertionSort (fun a b => a ≤ b)
          ((whereTrue (extremaFlags (fun a b => decide (b < a)) data)).filter
            (fun i => decide (s ≤ i)) ++
          (whereTrue (extremaFlags (fun a b => decide (a < b)) data)).filter
            (fun i => decide (s ≤ i)))) := by
  have hne : data ≠ [] := by
    intro hnil; rw [hnil] at h2; simp at h2
  have hdisj : ∀ i,
      i ∈ (whereTrue (extremaFlags (fun a b => decide (b < a)) data)).filter
        (fun j => decide (s ≤ j)) →
      ¬ i ∈ (whereTrue (extremaFlags (fun a b => decide (a < b)) data)).filter
        (fun j => decide (s ≤ j)) := by
    intro i hp ht
    rw [mem_extrema_filter] at hp ht
    obtain ⟨hlp, hfp, -⟩ := hp
    obtain ⟨-, hft, -⟩ := ht
    rw [extremaFlags_length _ _ hne] at hlp
    rw [extremaFlags_getD _ _ _ hlp] at hfp hft
    simp only [Bool.and_eq_true, Bool.or_eq_true, decide_eq_true_eq] at hfp hft
    rcases Nat.eq_zero_or_pos i with hi0 | hipos
    · subst hi0
      rcases hfp.2 with h1 | h1
      · omega
      · rcases hft.2 with h2' | h2'
        · omega
        · exact absurd (lt_trans h1 h2') (lt_irrefl _)
    · rcases hfp.1 with h1 | h1
      · omega
      · rcases hft.1 with h2' | h2'
        · omega
        · exact absurd (lt_trans h1 h2') (lt_irrefl _)
  have hfilter :
      ((whereTrue (extremaFlags (fun a b => decide (b < a)) data)).filter
        (fun i => decide (s ≤ i))).filter
        (fun i => ((whereTrue (extremaFlags (fun a b => decide (a < b))
          data)).filter (fun j => decide (s ≤ j))).contains i) = [] := by
    rw [List.filter_eq_nil_iff]
    intro i hi hc
    exact hdisj i hi (by simpa using hc)
  rw [find_local_extrema]
  simp only [hfilter]

lemma searchsorted_spec (l : List ℚ) (t : ℚ) :
    searchsorted l t ≤ l.length ∧
    (∀ j, j < searchsorted l t → l.getD j 0 < t) ∧
    (searchsorted l t < l.length → t ≤ l.getD (searchsorted l t) 0) := by
  induction l with
  | nil => simp [searchsorted]
  | cons x xs ih =>
    rw [searchsorted]
    by_cases hx : t ≤ x
    · rw [if_pos hx]
      refine ⟨by omega, ?_, ?_⟩
      · intro j hj; omega
      · intro _; simpa using hx
    · rw [if_neg hx]
      obtain ⟨ih1, ih2, ih3⟩ := ih
      refine ⟨by simpa using Nat.succ_le_succ ih1, ?_, ?_⟩
      · intro j hj
        cases j with
        | zero => simpa using lt_of_not_le hx
        | succ k => rw [List.getD_cons_succ]; exact ih2 k (by omega)
      · intro hlt
        rw [List.getD_cons_succ]
        exact ih3 (by simpa using hlt)

lemma sorted_getD_mono (l : List ℚ) (hs : List.Sorted (fun a b => a ≤ b) l)
    (i j : Nat) (hij : i ≤ j) (hj : j < l.length) :
    l.getD i 0 ≤ l.getD j 0 := by
  rcases eq_or_lt_of_le hij with rfl | hlt
  · exact le_refl _
  · have h1 := hs.rel_get_of_lt (a := ⟨i, by omega⟩) (b := ⟨j, hj⟩)
      (Fin.mk_lt_mk.mpr hlt)
    rw [List.getD_eq_getElem?_getD, List.getD_eq_getElem?_getD,
      List.getElem?_eq_getElem (by omega : i < l.length),
      List.getElem?_eq_getElem hj]
    simpa using h1

/-!
# Claim theorems
-/

/-- C10: `complete_index_distance` on a one-element index array never
produces a result — the final-boundary averaging reads `indices[-2]`, which
does not exist, so the call raises an uncaught `IndexError` for every
`final_length`. -/
theorem C10_single_index_raises (i n : Nat) :
    complete_index_distance [i] n = none := rfl

/-- C4 (code bug): on a single-sample signal the returned peak and trough
index sets are both `[0]` — they intersect — and the returned extrema
sequence `[0, 0]` is not the sorted union of the two sets as claimed; no
internal-consistency error is raised because `bool(np.intersect1d([0],[0]))`
is `False` for the single shared index `0`. -/
theorem C4_singleton_silent_intersection :
    find_local_extrema [(0 : ℚ)] 0 = some ([0], [0], [0, 0]) ∧
    ∃ p t e, find_local_extrema [(0 : ℚ)] 0 = some (p, t, e) ∧
      0 ∈ p ∧ 0 ∈ t :=
  ⟨by decide, [0], [0], [0, 0], by decide, by decide, by decide⟩

/-- C5 (counterexample): on the flat two-sample signal `[0, 0]` neither the
first nor the last sample is classified as a peak or a trough — the
comparisons are strict, so the claim that boundary samples are always
classified as extrema fails. -/
theorem C5_flat_boundary_cex :
    ∃ p t e, find_local_extrema [(0 : ℚ), 0] 0 = some (p, t, e) ∧
      0 ∉ p ∧ 0 ∉ t ∧ 1 ∉ p ∧ 1 ∉ t :=
  ⟨[], [], [], by decide, by decide, by decide, by decide, by decide⟩

/-- C5 (amended): for a signal with at least two samples and
`start_index = 0`, a boundary sample is classified as a peak (resp. trough)
exactly when the strict one-sided comparison with its single neighbour
holds; a boundary sample equal to its neighbour is neither. -/
theorem C5_boundary_amended (data : List ℚ) (h2 : 2 ≤ data.length) :
    ∃ p t e, find_local_extrema data 0 = some (p, t, e) ∧
      (0 ∈ p ↔ data.getD 1 0 < data.getD 0 0) ∧
      (0 ∈ t ↔ data.getD 0 0 < data.getD 1 0) ∧
      (data.length - 1 ∈ p ↔
        data.getD (data.length - 2) 0 < data.getD (data.length - 1) 0) ∧
      (data.length - 1 ∈ t ↔
        data.getD (data.length - 1) 0 < data.getD (data.length - 2) 0) := by
  have hne : data ≠ [] := by
    intro hnil; rw [hnil] at h2; simp at h2
  refine ⟨_, _, _, find_local_extrema_eq_some data 0 h2, ?_, ?_, ?_, ?_⟩
  · rw [mem_extrema_filter, extremaFlags_length _ _ hne,
      extremaFlags_getD _ _ _ (by omega)]
    have hn1 : ¬(0 = data.length - 1) := by omega
    simp [hn1, show 0 < data.length from by omega]
  · rw [mem_extrema_filter, extremaFlags_length _ _ hne,
      extremaFlags_getD _ _ _ (by omega)]
    have hn1 : ¬(0 = data.length - 1) := by omega
    simp [hn1, show 0 < data.length from by omega]
  · rw [mem_extrema_filter, extremaFlags_length _ _ hne,
      extremaFlags_getD _ _ _ (by omega)]
    have hn0 : ¬(data.length - 1 = 0) := by omega
    have hsub : data.length - 1 - 1 = data.length - 2 := by omega
    simp [hn0, hsub, show data.length - 1 < data.length from by omega]
  · rw [mem_extrema_filter, extremaFlags_length _ _ hne,
      extremaFlags_getD _ _ _ (by omega)]
    have hn0 : ¬(data.length - 1 = 0) := by omega
    have hsub : data.length - 1 - 1 = data.length - 2 := by omega
    simp [hn0, hsub, show data.length - 1 < data.length from by omega]

/-- C5 (witness): on the strictly falling pair `[1, 0]` the first sample is
a peak and the last a trough. -/
theorem C5_boundary_witness :
    2 ≤ ([(1 : ℚ), 0]).length ∧
    ∃ p t e, find_local_extrema [(1 : ℚ), 0] 0 = some (p, t, e) ∧
      (0 ∈ p ↔ ([(1 : ℚ), 0]).getD 1 0 < ([(1 : ℚ), 0]).getD 0 0) ∧
      (0 ∈ t ↔ ([(1 : ℚ), 0]).getD 0 0 < ([(1 : ℚ), 0]).getD 1 0) ∧
      (([(1 : ℚ), 0]).length - 1 ∈ p ↔
        ([(1 : ℚ), 0]).getD (([(1 : ℚ), 0]).length - 2) 0 <
          ([(1 : ℚ), 0]).getD (([(1 : ℚ), 0]).length - 1) 0) ∧
      (([(1 : ℚ), 0]).length - 1 ∈ t ↔
        ([(1 : ℚ), 0]).getD (([(1 : ℚ), 0]).length - 1) 0 <
          ([(1 : ℚ), 0]).getD (([(1 : ℚ), 0]).length - 2) 0) :=
  ⟨by decide, C5_boundary_amended [(1 : ℚ), 0] (by decide)⟩

/-- C7 (counterexample): with reference array `[0, 1]` and target `1/2` —
the exact midpoint — `find_closest` returns index `1`, the larger of the two
bracketing values, not index `0` as the claim states. -/
theorem C7_tie_cex :
    find_closest [(0 : ℚ), 1] [1 / 2] = [1] ∧
    find_closest [(0 : ℚ), 1] [1 / 2] ≠ [0] := by
  constructor
  · decide
  · decide

/-- C7 (amended): for a sorted reference array and a target lying exactly at
the midpoint of two consecutive, distinct reference values, `find_closest`
returns the index of the *larger* of the two bracketing values. -/
theorem C7_tie_amended (ref : List ℚ) (i : Nat) (hi : i + 1 < ref.length)
    (hs : List.Sorted (fun a b => a ≤ b) ref)
    (hlt : ref.getD i 0 < ref.getD (i + 1) 0) :
    find_closest ref [(ref.getD i 0 + ref.getD (i + 1) 0) / 2] = [i + 1] := by
  have hta : ref.getD i 0 < (ref.getD i 0 + ref.getD (i + 1) 0) / 2 := by
    linarith
  have htb : (ref.getD i 0 + ref.getD (i + 1) 0) / 2 < ref.getD (i + 1) 0 := by
    linarith
  obtain ⟨hle, hbelow, habove⟩ :=
    searchsorted_spec ref ((ref.getD i 0 + ref.getD (i + 1) 0) / 2)
  have hss : searchsorted ref ((ref.getD i 0 + ref.getD (i + 1) 0) / 2) =
      i + 1 := by
    by_contra hne
    rcases lt_or_gt_of_ne hne with hlt2 | hgt
    · have hsi : searchsorted ref ((ref.getD i 0 + ref.getD (i + 1) 0) / 2) ≤
          i := by omega
      have h1 := habove (by omega)
      have h2 := sorted_getD_mono ref hs
        (searchsorted ref ((ref.getD i 0 + ref.getD (i + 1) 0) / 2)) i hsi
        (by omega)
      linarith
    · have := hbelow (i + 1) (by omega)
      linarith
  have hmin : min (max (searchsorted ref
      ((ref.getD i 0 + ref.getD (i + 1) 0) / 2)) 1) (ref.length - 1) =
      i + 1 := by
    rw [hss]; omega
  have hcond : ¬((ref.getD i 0 + ref.getD (i + 1) 0) / 2 - ref.getD i 0 <
      ref.getD (i + 1) 0 - (ref.getD i 0 + ref.getD (i + 1) 0) / 2) := by
    have heq : (ref.getD i 0 + ref.getD (i + 1) 0) / 2 - ref.getD i 0 =
        ref.getD (i + 1) 0 - (ref.getD i 0 + ref.getD (i + 1) 0) / 2 := by
      ring
    rw [heq]
    exact lt_irrefl _
  rw [find_closest, List.map_cons, List.map_nil]
  simp only [hmin, Nat.add_sub_cancel, hcond, if_false]

/-- C7 (witness): instantiating the amended tie rule on `[0, 1]` at the
midpoint `1/2` yields index `1`. -/
theorem C7_tie_witness :
    find_closest [(0 : ℚ), 1]
      [(([(0 : ℚ), 1]).getD 0 0 + ([(0 : ℚ), 1]).getD 1 0) / 2] = [1] :=
  C7_tie_amended [(0 : ℚ), 1] 0 (by decide) (by decide) (by decide)

/-!
## `find_ones` lemmas (claim C9)
-/

lemma find_ones_aux_ones (k : Nat) (post : List Int) (s idx : Nat) :
    find_ones_aux (List.replicate k 1 ++ post) (some s) idx =
      find_ones_aux post (some s) (idx + k) := by
  induction k generalizing idx with
  | zero => simp
  | succ m ih =>
    rw [List.replicate_succ, List.cons_append]
    rw [show find_ones_aux ((1 : Int) :: (List.replicate m 1 ++ post))
        (some s) idx =
        find_ones_aux (List.replicate m 1 ++ post) (some s) (idx + 1) from by
      simp [find_ones_aux]]
    rw [ih]
    congr 1
    omega

lemma find_ones_aux_ones_start (k : Nat) (hk : 1 ≤ k) (post : List Int)
    (idx : Nat) :
    find_ones_aux (List.replicate k 1 ++ post) none idx =
      find_ones_aux post (some idx) (idx + k) := by
  obtain ⟨m, rfl⟩ : ∃ m, k = m + 1 := ⟨k - 1, by omega⟩
  rw [List.replicate_succ, List.cons_append]
  rw [show find_ones_aux ((1 : Int) :: (List.replicate m 1 ++ post))
      none idx =
      find_ones_aux (List.replicate m 1 ++ post) (some idx) (idx + 1) from by
    simp [find_ones_aux]]
  rw [find_ones_aux_ones]
  congr 1
  omega

lemma find_ones_aux_prefix :
    ∀ (pre : List Int) (suffix : List Int) (idx : Nat) (st : Option Nat)
      (target : Nat × Nat), pre ≠ [] →
      (∀ v, pre.getLast? = some v → v ≠ 1) →
      target ∈ find_ones_aux suffix none (idx + pre.length) →
      target ∈ find_ones_aux (pre ++ suffix) st idx
  | [], _, _, _, _, hpre, _, _ => absurd rfl hpre
  | [x], suffix, idx, st, target, _, hlast, hmem => by
    have hx : x ≠ 1 := hlast x rfl
    cases st with
    | none =>
      simpa [find_ones_aux, hx] using hmem
    | some s =>
      simp only [List.cons_append, List.nil_append]
      rw [show find_ones_aux (x :: suffix) (some s) idx =
          (s, idx - 1) :: find_ones_aux suffix none (idx + 1) from by
        simp [find_ones_aux, hx]]
      exact List.mem_cons_of_mem _ (by simpa using hmem)
  | x :: y :: pre', suffix, idx, st, target, _, hlast, hmem => by
    have hlast' : ∀ v, (y :: pre').getLast? = some v → v ≠ 1 := by
      intro v hv
      exact hlast v (by rwa [List.getLast?_cons_cons])
    have hmem' : target ∈ find_ones_aux suffix none
        ((idx + 1) + (y :: pre').length) := by
      have harith : (idx + 1) + (y :: pre').length =
          idx + (x :: y :: pre').length := by simp; omega
      rwa [harith]
    have ih := fun st' => find_ones_aux_prefix (y :: pre') suffix (idx + 1) st'
      target (by simp) hlast' hmem'
    by_cases hx : x = 1
    · cases st with
      | none =>
        simpa [find_ones_aux, hx] using ih (some idx)
      | some s =>
        simpa [find_ones_aux, hx] using ih (some s)
    · cases st with
      | none =>
        simpa [find_ones_aux, hx] using ih none
      | some s =>
        show target ∈ find_ones_aux (x :: ((y :: pre') ++ suffix)) (some s) idx
        rw [show find_ones_aux (x :: ((y :: pre') ++ suffix)) (some s) idx =
            (s, idx - 1) :: find_ones_aux ((y :: pre') ++ suffix) none
              (idx + 1) from by
          simp [find_ones_aux, hx]]
        exact List.mem_cons_of_mem _ (ih none)

/-- C9: in `find_ones`, (1) a non-empty all-ones input — whose single
maximal run of ones begins at index 0 and reaches the last element — yields
no pair at all (the closing `if start_index:` is falsy for the number 0);
(2) a maximal run of ones ending before the last element is yielded no
matter where it starts; (3) a maximal run reaching the last element but
starting at an index ≥ 1 is yielded. -/
theorem C9_find_ones_runs :
    (∀ l : List Int, l ≠ [] → (∀ x ∈ l, x = 1) → find_ones l = []) ∧
    (∀ (pre post : List Int) (k : Nat), 1 ≤ k →
      (∀ v, pre.getLast? = some v → v ≠ 1) →
      (∀ v, post.head? = some v → v ≠ 1) → post ≠ [] →
      (pre.length, pre.length + k - 1) ∈
        find_ones (pre ++ List.replicate k 1 ++ post)) ∧
    (∀ (pre : List Int) (k : Nat), 1 ≤ k → pre ≠ [] →
      (∀ v, pre.getLast? = some v → v ≠ 1) →
      (pre.length, pre.length + k - 1) ∈
        find_ones (pre ++ List.replicate k 1)) := by
  refine ⟨?_, ?_, ?_⟩
  · intro l hne hall
    have hrep : l = List.replicate l.length 1 :=
      List.eq_replicate_iff.mpr ⟨rfl, hall⟩
    have hlen : 1 ≤ l.length := by
      cases l with
      | nil => exact absurd rfl hne
      | cons _ _ => simp
    rw [find_ones, hrep]
    rw [show List.replicate l.length (1 : Int) =
        List.replicate l.length 1 ++ [] from by simp]
    rw [find_ones_aux_ones_start l.length hlen [] 0]
    simp [find_ones_aux]
  · intro pre post k hk hlast hhead hpost
    obtain ⟨q, qs, rfl⟩ : ∃ q qs, post = q :: qs := by
      cases post with
      | nil => exact absurd rfl hpost
      | cons q qs => exact ⟨q, qs, rfl⟩
    have hq : q ≠ 1 := hhead q rfl
    rcases eq_or_ne pre [] with rfl | hpre
    · simp only [List.nil_append, List.length_nil]
      rw [find_ones, find_ones_aux_ones_start k hk _ 0]
      rw [show find_ones_aux (q :: qs) (some 0) (0 + k) =
          (0, (0 + k) - 1) :: find_ones_aux qs none ((0 + k) + 1) from by
        simp [find_ones_aux, hq]]
      simp only [Nat.zero_add]
      exact List.mem_cons_self _ _
    · rw [find_ones, List.append_assoc]
      apply find_ones_aux_prefix pre _ 0 none _ hpre hlast
      rw [find_ones_aux_ones_start k hk _ _]
      rw [show find_ones_aux (q :: qs) (some (0 + pre.length))
          ((0 + pre.length) + k) =
          ((0 + pre.length), ((0 + pre.length) + k) - 1) ::
            find_ones_aux qs none (((0 + pre.length) + k) + 1) from by
        simp [find_ones_aux, hq]]
      simp only [Nat.zero_add]
      exact List.mem_cons_self _ _
  · intro pre k hk hpre hlast
    rw [find_ones]
    apply find_ones_aux_prefix pre _ 0 none _ hpre hlast
    rw [show List.replicate k (1 : Int) = List.replicate k 1 ++ [] from by
      simp]
    rw [find_ones_aux_ones_start k hk [] _]
    have hpl : ¬(0 + pre.length = 0) := by
      cases pre with
      | nil => exact absurd rfl hpre
      | cons _ _ => simp
    rw [show find_ones_aux [] (some (0 + pre.length)) ((0 + pre.length) + k) =
        [(0 + pre.length, ((0 + pre.length) + k) - 1)] from by
      simp [find_ones_aux, hpl, hpre]]
    simp

/-- C9 (witness): the all-ones array `[1, 1]` yields nothing; the interior
run of `[0, 1, 0]` and the trailing run of `[0, 1]` are both yielded. -/
theorem C9_find_ones_witness :
    find_ones [1, 1] = [] ∧
    ((1 : Nat), (1 : Nat)) ∈ find_ones ([0] ++ List.replicate 1 1 ++ [0]) ∧
    ((1 : Nat), (1 : Nat)) ∈ find_ones ([0] ++ List.replicate 1 1) := by
  refine ⟨C9_find_ones_runs.1 [1, 1] (by decide) (by decide), ?_, ?_⟩
  · have h := C9_find_ones_runs.2.1 [0] [0] 1 (by decide)
      (by intro v hv; simp at hv; omega)
      (by intro v hv; simp at hv; omega) (by decide)
    simpa using h
  · have h := C9_find_ones_runs.2.2 [0] 1 (by decide) (by decide)
      (by intro v hv; simp at hv; omega)
    simpa using h

/-!
## `complete_index_distance` characterization (claim C6)
-/

lemma getD_mem (l : List Nat) (i : Nat) (h : i < l.length) : l.getD i 0 ∈ l := by
  rw [List.getD_eq_getElem?_getD, List.getElem?_eq_getElem h]
  simp

lemma chain'_lt_getD_strictMono (l : List Nat)
    (h : List.Chain' (fun a b => a < b) l) (i j : Nat) (hij : i < j)
    (hj : j < l.length) : l.getD i 0 < l.getD j 0 := by
  have hp : List.Pairwise (fun a b => a < b) l := List.chain'_iff_pairwise.mp h
  have hg := List.pairwise_iff_get.mp hp ⟨i, by omega⟩ ⟨j, hj⟩
    (Fin.mk_lt_mk.mpr hij)
  rw [List.getD_eq_getElem?_getD, List.getD_eq_getElem?_getD,
    List.getElem?_eq_getElem (by omega : i < l.length),
    List.getElem?_eq_getElem hj]
  simpa using hg

lemma chain'_lt_getD_mono (l : List Nat)
    (h : List.Chain' (fun a b => a < b) l) (i j : Nat) (hij : i ≤ j)
    (hj : j < l.length) : l.getD i 0 ≤ l.getD j 0 := by
  rcases eq_or_lt_of_le hij with rfl | hlt
  · exact le_refl _
  · exact le_of_lt (chain'_lt_getD_strictMono l h i j hlt hj)

/-- The value the middle loop of `complete_index_distance` leaves at
position `j` (`none` where the loop does not write, or where a later border
write overwrites it). -/
def midSpec (prev : Option Nat) : List Nat → Nat → Option ℚ
  | l :: r :: rest, j =>
    if j < l then none
    else if j = l then
      some ((((r : ℚ) - (l : ℚ)) + leftGap prev l) * (1/2))
    else if j < r then some ((r : ℚ) - (l : ℚ))
    else midSpec (some l) (r :: rest) j
  | _, _ => none

lemma lastTwo_eq : ∀ (l : List Nat), 2 ≤ l.length →
    lastTwo l = some (l.getD (l.length - 2) 0, l.getD (l.length - 1) 0)
  | [a, b], _ => rfl
  | a :: b :: c :: rest, _ => by
    have ih := lastTwo_eq (b :: c :: rest) (by simp)
    rw [show lastTwo (a :: b :: c :: rest) = lastTwo (b :: c :: rest) from rfl,
      ih]
    have h1 : (a :: b :: c :: rest).length - 2 =
        ((b :: c :: rest).length - 2) + 1 := by
      simp only [List.length_cons]; omega
    have h2 : (a :: b :: c :: rest).length - 1 =
        ((b :: c :: rest).length - 1) + 1 := by
      simp only [List.length_cons]; omega
    rw [h1, h2, List.getD_cons_succ, List.getD_cons_succ]

lemma cidMid_spec : ∀ (idxs : List Nat) (n : Nat) (prev : Option Nat)
    (f : Nat → ℚ), List.Chain' (fun a b => a < b) idxs →
    (∀ x ∈ idxs, x < n) →
    ∃ g, cidMid n prev f idxs = some g ∧
      ∀ j, (∀ lst, idxs.getLast? = some lst → j ≠ lst) →
        g j = (midSpec prev idxs j).getD (f j)
  | [], n, prev, f, _, _ => by
    refine ⟨f, rfl, ?_⟩
    intro j _
    simp [midSpec]
  | [x], n, prev, f, _, _ => by
    refine ⟨f, rfl, ?_⟩
    intro j hj
    simp [midSpec]
  | l :: r :: rest, n, prev, f, hchain, hlt => by
    have hlr : l < r := (List.chain'_cons.mp hchain).1
    have hln : l < n := hlt l (by simp)
    have hchain' : List.Chain' (fun a b => a < b) (r :: rest) :=
      (List.chain'_cons.mp hchain).2
    have hlt' : ∀ x ∈ r :: rest, x < n := by
      intro x hx; exact hlt x (List.mem_cons_of_mem _ hx)
    obtain ⟨g, hg, hgj⟩ := cidMid_spec (r :: rest) n (some l)
      (updAt (updRange f l (r + 1) ((r : ℚ) - (l : ℚ))) l
        ((((r : ℚ) - (l : ℚ)) + leftGap prev l) * (1/2)))
      hchain' hlt'
    refine ⟨g, ?_, ?_⟩
    · rw [show cidMid n prev f (l :: r :: rest) =
          (if l < n then
            cidMid n (some l)
              (updAt (updRange f l (r + 1) ((r : ℚ) - (l : ℚ))) l
                ((((r : ℚ) - (l : ℚ)) + leftGap prev l) * (1/2)))
              (r :: rest)
          else none) from rfl, if_pos hln]
      exact hg
    · intro j hjlast
      have hjlast' : ∀ lst, (r :: rest).getLast? = some lst → j ≠ lst := by
        intro lst hl
        exact hjlast lst (by rwa [List.getLast?_cons_cons])
      have hgj' := hgj j hjlast'
      by_cases h1 : j < l
      · have hA : midSpec (some l) (r :: rest) j = none := by
          cases rest with
          | nil => simp [midSpec]
          | cons r2 rest' => simp [midSpec, show j < r from by omega]
        have hB : midSpec prev (l :: r :: rest) j = none := by
          simp [midSpec, h1]
        rw [hgj', hA, hB]
        simp [updAt, updRange, show ¬(j = l) from by omega,
          show ¬(l ≤ j) from by omega]
      · by_cases h2 : j = l
        · subst h2
          have hA : midSpec (some j) (r :: rest) j = none := by
            cases rest with
            | nil => simp [midSpec]
            | cons r2 rest' => simp [midSpec, show j < r from hlr]
          have hB : midSpec prev (j :: r :: rest) j =
              some ((((r : ℚ) - (j : ℚ)) + leftGap prev j) * (1/2)) := by
            simp [midSpec]
          rw [hgj', hA, hB]
          simp [updAt]
        · by_cases h3 : j < r
          · have hA : midSpec (some l) (r :: rest) j = none := by
              cases rest with
              | nil => simp [midSpec]
              | cons r2 rest' => simp [midSpec, h3]
            have hB : midSpec prev (l :: r :: rest) j =
                some ((r : ℚ) - (l : ℚ)) := by
              simp [midSpec, h1, h2, h3]
            rw [hgj', hA, hB]
            simp [updAt, h2, updRange, show l ≤ j from by omega,
              show j < r + 1 from by omega]
          · have hB : midSpec prev (l :: r :: rest) j =
                midSpec (some l) (r :: rest) j := by
              simp [midSpec, h1, h2, h3]
            rw [hgj', hB]
            cases hA : midSpec (some l) (r :: rest) j with
            | some v => simp
            | none =>
              have hjr : j ≠ r := by
                intro hjr
                subst hjr
                cases rest with
                | nil => exact hjlast' j rfl rfl
                | cons r2 rest' => simp [midSpec] at hA
              simp [updAt, h2, updRange,
                show ¬(l ≤ j ∧ j < r + 1) from by omega]

/-- The "previous gap" of index position `i` seen by the middle loop. -/
def prevGapQAux (prev : Option Nat) (idxs : List Nat) (i : Nat) : ℚ :=
  if i = 0 then leftGap prev (idxs.getD 0 0)
  else (idxs.getD i 0 : ℚ) - (idxs.getD (i - 1) 0 : ℚ)

lemma midSpec_pair : ∀ (i : Nat) (idxs : List Nat) (prev : Option Nat),
    List.Chain' (fun a b => a < b) idxs → i + 1 < idxs.length →
    (∀ j, idxs.getD i 0 < j → j < idxs.getD (i + 1) 0 →
      midSpec prev idxs j =
        some ((idxs.getD (i + 1) 0 : ℚ) - (idxs.getD i 0 : ℚ))) ∧
    midSpec prev idxs (idxs.getD i 0) =
      some ((((idxs.getD (i + 1) 0 : ℚ) - (idxs.getD i 0 : ℚ)) +
        prevGapQAux prev idxs i) * (1/2))
  | 0, [], _, _, hlen => by simp at hlen
  | 0, [_], _, _, hlen => by simp at hlen
  | 0, l :: r :: rest, prev, hchain, _ => by
    have hlr : l < r := (List.chain'_cons.mp hchain).1
    constructor
    · intro j hj1 hj2
      rw [List.getD_cons_zero] at hj1
      rw [List.getD_cons_succ, List.getD_cons_zero] at hj2
      simp [midSpec, show ¬(j < l) from by omega,
        show ¬(j = l) from by omega, hj2]
    · rw [List.getD_cons_zero, List.getD_cons_succ, List.getD_cons_zero]
      simp [midSpec, prevGapQAux]
  | (i' + 1), [], _, _, hlen => by simp at hlen
  | (i' + 1), [_], _, _, hlen => by simp at hlen
  | (i' + 1), l :: r :: rest, prev, hchain, hlen => by
    have hlr : l < r := (List.chain'_cons.mp hchain).1
    have hchain' : List.Chain' (fun a b => a < b) (r :: rest) :=
      (List.chain'_cons.mp hchain).2
    have hlen' : i' + 1 < (r :: rest).length := by
      simp only [List.length_cons] at hlen ⊢; omega
    obtain ⟨ihb, iha⟩ := midSpec_pair i' (r :: rest) (some l) hchain' hlen'
    have hr_le : r ≤ (r :: rest).getD i' 0 := by
      have := chain'_lt_getD_mono (r :: rest) hchain' 0 i' (by omega)
        (by omega)
      simpa using this
    constructor
    · intro j hj1 hj2
      rw [List.getD_cons_succ] at hj1 hj2 ⊢
      rw [List.getD_cons_succ]
      have hjr : ¬(j < r) := by omega
      rw [show midSpec prev (l :: r :: rest) j =
          midSpec (some l) (r :: rest) j from by
        simp [midSpec, show ¬(j < l) from by omega,
          show ¬(j = l) from by omega, hjr]]
      exact ihb j hj1 hj2
    · rw [List.getD_cons_succ, List.getD_cons_succ, List.getD_cons_succ]
      have hc1 : ¬((r :: rest).getD i' 0 < l) := by omega
      have hc2 : ¬((r :: rest).getD i' 0 = l) := by omega
      have hc3 : ¬((r :: rest).getD i' 0 < r) := by omega
      have hun : midSpec prev (l :: r :: rest) ((r :: rest).getD i' 0) =
          if (r :: rest).getD i' 0 < l then none
          else if (r :: rest).getD i' 0 = l then
            some ((((r : ℚ) - (l : ℚ)) + leftGap prev l) * (1/2))
          else if (r :: rest).getD i' 0 < r then some ((r : ℚ) - (l : ℚ))
          else midSpec (some l) (r :: rest) ((r :: rest).getD i' 0) := rfl
      rw [hun, if_neg hc1, if_neg hc2, if_neg hc3, iha]
      congr 2
      cases i' with
      | zero =>
        simp [prevGapQAux, leftGap]
      | succ k =>
        simp only [prevGapQAux, Nat.succ_ne_zero, if_false,
          Nat.add_sub_cancel, List.getD_cons_succ, Nat.succ_sub_one]

lemma midSpec_lt_head (prev : Option Nat) (l r : Nat) (rest : List Nat)
    (j : Nat) (h : j < l) : midSpec prev (l :: r :: rest) j = none := by
  simp [midSpec, h]

lemma getD_range_map (f : Nat → ℚ) (n j : Nat) (h : j < n) :
    ((List.range n).map f).getD j 0 = f j := by
  rw [List.getD_eq_getElem?_getD, List.getElem?_map, List.getElem?_range h]
  simp

lemma getLast?_eq_getD (l : List Nat) (h : l ≠ []) :
    l.getLast? = some (l.getD (l.length - 1) 0) := by
  rw [List.getLast?_eq_getElem?]
  exact getElem?_eq_some_getD _ _ _ (by
    cases l with
    | nil => exact absurd rfl h
    | cons a t => simp)

/-- C6: for a strictly increasing index list with at least two entries, all
smaller than `final_length`, `complete_index_distance` succeeds and the
resulting dense curve holds: `indices[0] + 1` left of the first index; for
each consecutive pair `(left, right)` the value `right - left` strictly
between them and the mean of the predecessor gap (`left + 1` for the first
index) and `right - left` at `left` itself; `final_length - indices[-1]`
right of the last index; and the mean of that trailing gap and the gap to
`indices[-2]` at the last index. -/
theorem C6_distance_curve (indices : List Nat) (n : Nat)
    (hs : List.Chain' (fun a b => a < b) indices)
    (h2 : 2 ≤ indices.length) (hlt : ∀ x ∈ indices, x < n) :
    ∃ out, complete_index_distance indices n = some out ∧ out.length = n ∧
      (∀ j, j < indices.getD 0 0 →
        out.getD j 0 = (indices.getD 0 0 : ℚ) + 1) ∧
      (∀ i, i + 1 < indices.length →
        (∀ j, indices.getD i 0 < j → j < indices.getD (i + 1) 0 →
          out.getD j 0 =
            (indices.getD (i + 1) 0 : ℚ) - (indices.getD i 0 : ℚ)) ∧
        out.getD (indices.getD i 0) 0 =
          (((indices.getD (i + 1) 0 : ℚ) - (indices.getD i 0 : ℚ)) +
            (if i = 0 then (indices.getD 0 0 : ℚ) + 1
             else (indices.getD i 0 : ℚ) - (indices.getD (i - 1) 0 : ℚ))) *
            (1/2)) ∧
      (∀ j, indices.getD (indices.length - 1) 0 < j → j < n →
        out.getD j 0 = (n : ℚ) - (indices.getD (indices.length - 1) 0 : ℚ)) ∧
      out.getD (indices.getD (indices.length - 1) 0) 0 =
        (((n : ℚ) - (indices.getD (indices.length - 1) 0 : ℚ)) +
          ((indices.getD (indices.length - 1) 0 : ℚ) -
           (indices.getD (indices.length - 2) 0 : ℚ))) * (1/2) := by
  obtain ⟨first, r0, rest', rfl⟩ :
      ∃ a b t, indices = a :: b :: t := by
    cases indices with
    | nil => simp at h2
    | cons a t =>
      cases t with
      | nil => simp at h2
      | cons b t' => exact ⟨a, b, t', rfl⟩
  obtain ⟨g, hg, hgj⟩ := cidMid_spec (first :: r0 :: rest') n none
    (updRange (fun _ => 0) 0 first ((first : ℚ) + 1)) hs hlt
  have hlen : (first :: r0 :: rest').length = rest'.length + 2 := by simp
  have hlast_lt_n : (first :: r0 :: rest').getD
      ((first :: r0 :: rest').length - 1) 0 < n :=
    hlt _ (getD_mem _ _ (by simp))
  have hfirst_lt_last : first <
      (first :: r0 :: rest').getD ((first :: r0 :: rest').length - 1) 0 := by
    have := chain'_lt_getD_strictMono _ hs 0
      ((first :: r0 :: rest').length - 1) (by simp) (by simp)
    simpa using this
  have hlastq : (first :: r0 :: rest').getLast? =
      some ((first :: r0 :: rest').getD
        ((first :: r0 :: rest').length - 1) 0) :=
    getLast?_eq_getD _ (by simp)
  have hne_last : ∀ j, j ≠ (first :: r0 :: rest').getD
      ((first :: r0 :: rest').length - 1) 0 →
      ∀ lst, (first :: r0 :: rest').getLast? = some lst → j ≠ lst := by
    intro j hj lst hl
    rw [hlastq] at hl
    cases hl
    exact hj
  rw [show complete_index_distance (first :: r0 :: rest') n =
      (cidMid n none (updRange (fun _ => 0) 0 first ((first : ℚ) + 1))
        (first :: r0 :: rest')).bind (fun f2 =>
        (lastTwo (first :: r0 :: rest')).bind (fun pl =>
          if pl.2 < n then
            some ((List.range n).map
              (updAt (updRange f2 (pl.2 + 1) n ((n : ℚ) - (pl.2 : ℚ))) pl.2
                ((((n : ℚ) - (pl.2 : ℚ)) + ((pl.2 : ℚ) - (pl.1 : ℚ))) *
                  (1/2))))
          else none)) from rfl]
  rw [hg, Option.some_bind, lastTwo_eq _ h2, Option.some_bind,
    if_pos hlast_lt_n]
  refine ⟨_, rfl, by simp, ?_, ?_, ?_, ?_⟩
  · -- left of the first index
    intro j hj
    rw [List.getD_cons_zero] at hj
    have hjn : j < n := by
      have : first < n := hlt first (by simp)
      omega
    rw [getD_range_map _ _ _ hjn]
    have hjne : j ≠ (first :: r0 :: rest').getD
        ((first :: r0 :: rest').length - 1) 0 := by omega
    rw [updAt, if_neg hjne, updRange,
      if_neg (by omega :
        ¬((first :: r0 :: rest').getD
            ((first :: r0 :: rest').length - 1) 0 + 1 ≤ j ∧ j < n))]
    rw [hgj j (hne_last j hjne)]
    rw [midSpec_lt_head none first r0 rest' j hj]
    rw [Option.getD_none, updRange, if_pos (by omega : 0 ≤ j ∧ j < first)]
    simp
  · -- the middle pairs
    intro i hi
    have hpair := midSpec_pair i (first :: r0 :: rest') none hs hi
    have hi1_le_last : (first :: r0 :: rest').getD (i + 1) 0 ≤
        (first :: r0 :: rest').getD ((first :: r0 :: rest').length - 1) 0 :=
      chain'_lt_getD_mono _ hs (i + 1) ((first :: r0 :: rest').length - 1)
        (by omega) (by simp)
    have hi_lt_last : (first :: r0 :: rest').getD i 0 <
        (first :: r0 :: rest').getD ((first :: r0 :: rest').length - 1) 0 :=
      chain'_lt_getD_strictMono _ hs i ((first :: r0 :: rest').length - 1)
        (by omega) (by simp)
    constructor
    · intro j hj1 hj2
      have hjn : j < n := by omega
      rw [getD_range_map _ _ _ hjn]
      have hjne : j ≠ (first :: r0 :: rest').getD
          ((first :: r0 :: rest').length - 1) 0 := by omega
      rw [updAt, if_neg hjne, updRange, if_neg (by omega :
        ¬((first :: r0 :: rest').getD
            ((first :: r0 :: rest').length - 1) 0 + 1 ≤ j ∧ j < n))]
      rw [hgj j (hne_last j hjne), hpair.1 j hj1 hj2]
      simp
    · have hjn : (first :: r0 :: rest').getD i 0 < n := by omega
      rw [getD_range_map _ _ _ hjn]
      have hjne : (first :: r0 :: rest').getD i 0 ≠
          (first :: r0 :: rest').getD
            ((first :: r0 :: rest').length - 1) 0 := by omega
      rw [updAt, if_neg hjne, updRange, if_neg (by omega :
        ¬((first :: r0 :: rest').getD
            ((first :: r0 :: rest').length - 1) 0 + 1 ≤
            (first :: r0 :: rest').getD i 0 ∧
          (first :: r0 :: rest').getD i 0 < n))]
      rw [hgj _ (hne_last _ hjne), hpair.2]
      rw [Option.getD_some]
      rw [show prevGapQAux none (first :: r0 :: rest') i =
          (if i = 0 then ((first :: r0 :: rest').getD 0 0 : ℚ) + 1
           else ((first :: r0 :: rest').getD i 0 : ℚ) -
             ((first :: r0 :: rest').getD (i - 1) 0 : ℚ)) from by
        rw [prevGapQAux]
        by_cases hi0 : i = 0
        · simp [hi0, leftGap]
        · simp [hi0]]
  · -- right of the last index
    intro j hj1 hj2
    rw [getD_range_map _ _ _ hj2]
    have hjne : j ≠ (first :: r0 :: rest').getD
        ((first :: r0 :: rest').length - 1) 0 := by omega
    rw [updAt, if_neg hjne, updRange, if_pos (by omega :
      (first :: r0 :: rest').getD
          ((first :: r0 :: rest').length - 1) 0 + 1 ≤ j ∧ j < n)]
  · -- at the last index
    rw [getD_range_map _ _ _ hlast_lt_n]
    rw [updAt, if_pos rfl]

/-- C6 (witness): the characterization instantiated on `[2, 6, 7]` with
`final_length = 10`, together with the concrete curve
`[3, 3, 3.5, 4, 4, 4, 2.5, 2, 3, 3]` from the docstring. -/
theorem C6_distance_curve_witness :
    (∃ out, complete_index_distance [2, 6, 7] 10 = some out ∧
      out.length = 10 ∧
      (∀ j, j < ([2, 6, 7] : List Nat).getD 0 0 →
        out.getD j 0 = (([2, 6, 7] : List Nat).getD 0 0 : ℚ) + 1) ∧
      (∀ i, i + 1 < ([2, 6, 7] : List Nat).length →
        (∀ j, ([2, 6, 7] : List Nat).getD i 0 < j →
          j < ([2, 6, 7] : List Nat).getD (i + 1) 0 →
          out.getD j 0 = (([2, 6, 7] : List Nat).getD (i + 1) 0 : ℚ) -
            (([2, 6, 7] : List Nat).getD i 0 : ℚ)) ∧
        out.getD (([2, 6, 7] : List Nat).getD i 0) 0 =
          (((([2, 6, 7] : List Nat).getD (i + 1) 0 : ℚ) -
            (([2, 6, 7] : List Nat).getD i 0 : ℚ)) +
            (if i = 0 then (([2, 6, 7] : List Nat).getD 0 0 : ℚ) + 1
             else (([2, 6, 7] : List Nat).getD i 0 : ℚ) -
               (([2, 6, 7] : List Nat).getD (i - 1) 0 : ℚ))) * (1/2)) ∧
      (∀ j, ([2, 6, 7] : List Nat).getD
          (([2, 6, 7] : List Nat).length - 1) 0 < j → j < 10 →
        out.getD j 0 = (10 : ℚ) - (([2, 6, 7] : List Nat).getD
          (([2, 6, 7] : List Nat).length - 1) 0 : ℚ)) ∧
      out.getD (([2, 6, 7] : List Nat).getD
          (([2, 6, 7] : List Nat).length - 1) 0) 0 =
        (((10 : ℚ) - (([2, 6, 7] : List Nat).getD
            (([2, 6, 7] : List Nat).length - 1) 0 : ℚ)) +
          ((([2, 6, 7] : List Nat).getD
              (([2, 6, 7] : List Nat).length - 1) 0 : ℚ) -
           (([2, 6, 7] : List Nat).getD
              (([2, 6, 7] : List Nat).length - 2) 0 : ℚ))) * (1/2)) ∧
    complete_index_distance [2, 6, 7] 10 =
      some [3, 3, 7/2, 4, 4, 4, 5/2, 2, 3, 3] :=
  ⟨C6_distance_curve [2, 6, 7] 10
    (by norm_num [List.chain'_cons, List.chain'_singleton])
    (by decide) (by decide),
   by decide⟩

/-!
## Runs of the validity mask and the final selection loops (claims C1–C3)
-/

/-- Structural facts about a run list relative to the validity mask it was
extracted from: runs start at or after `lo`, are non-empty, end within the
mask, successive runs are separated by at least one sample, and every run
start is either 0 or directly preceded by an invalid sample. -/
def RunsSpec (m : List Bool) : Nat → List (Nat × Nat) → Prop
  | _, [] => True
  | lo, w :: rest =>
    lo ≤ w.1 ∧ w.1 < w.2 ∧ w.2 ≤ m.length ∧
    (w.1 = 0 ∨ m.getD (w.1 - 1) false = false) ∧
    RunsSpec m (w.2 + 1) rest

lemma RunsSpec_mono (m : List Bool) :
    ∀ (runs : List (Nat × Nat)) (lo lo' : Nat), lo ≤ lo' →
    RunsSpec m lo' runs → RunsSpec m lo runs
  | [], _, _, _, _ => trivial
  | w :: rest, lo, lo', h, hs => by
    obtain ⟨h1, h2, h3, h4, h5⟩ := hs
    exact ⟨by omega, h2, h3, h4, h5⟩

lemma drop_cons_facts (m : List Bool) (idx : Nat) (b : Bool)
    (rest : List Bool) (h : m.drop idx = b :: rest) :
    idx < m.length ∧ m.drop (idx + 1) = rest ∧ m.getD idx false = b := by
  have hlen : (m.drop idx).length = m.length - idx := List.length_drop _ _
  rw [h] at hlen
  have hidx : idx < m.length := by
    simp only [List.length_cons] at hlen; omega
  refine ⟨hidx, ?_, ?_⟩
  · have hdd : m.drop (idx + 1) = (m.drop idx).drop 1 := by
      rw [List.drop_drop]
    rw [hdd, h]
    simp
  · have hget : (m.drop idx)[0]? = some b := by rw [h]; simp
    rw [List.getElem?_drop, Nat.add_zero] at hget
    rw [List.getD_eq_getElem?_getD, hget]
    rfl

lemma true_runs_aux_spec :
    ∀ (l : List Bool) (m : List Bool) (idx : Nat) (st : Option Nat),
    l = m.drop idx → idx ≤ m.length →
    (st = none → (idx = 0 ∨ m.getD (idx - 1) false = false)) →
    (∀ s, st = some s → s < idx ∧ (s = 0 ∨ m.getD (s - 1) false = false)) →
    RunsSpec m (match st with | none => idx | some s => s)
      (true_runs_aux l idx st)
  | [], _, idx, none, _, _, _, _ => by
    simp only [true_runs_aux]
    trivial
  | [], m, idx, some s, _, hle, _, hsome => by
    obtain ⟨hs1, hs2⟩ := hsome s rfl
    simp only [true_runs_aux]
    exact ⟨le_refl s, hs1, hle, hs2, trivial⟩
  | b :: rest, m, idx, st, hdrop, _, hnone, hsome => by
    obtain ⟨hidx, hrest, hb⟩ := drop_cons_facts m idx b rest hdrop.symm
    cases st with
    | none =>
      cases b with
      | true =>
        have ih := true_runs_aux_spec rest m (idx + 1) (some idx)
          hrest.symm (by omega) (by intro h; cases h)
          (by intro s hs; cases hs; exact ⟨by omega, hnone rfl⟩)
        simpa [true_runs_aux] using ih
      | false =>
        have ih := true_runs_aux_spec rest m (idx + 1) none
          hrest.symm (by omega)
          (by intro _; right; simpa using hb) (by intro s hs; cases hs)
        have := RunsSpec_mono m _ idx (idx + 1) (by omega) (by simpa using ih)
        simpa [true_runs_aux] using this
    | some s =>
      obtain ⟨hs1, hs2⟩ := hsome s rfl
      cases b with
      | true =>
        have ih := true_runs_aux_spec rest m (idx + 1) (some s)
          hrest.symm (by omega) (by intro h; cases h)
          (by intro s' hs'; cases hs'; exact ⟨by omega, hs2⟩)
        simpa [true_runs_aux] using ih
      | false =>
        have ih := true_runs_aux_spec rest m (idx + 1) none
          hrest.symm (by omega)
          (by intro _; right; simpa using hb) (by intro s' hs'; cases hs')
        have hres : RunsSpec m s ((s, idx) :: true_runs_aux rest (idx + 1)
            none) :=
          ⟨le_refl s, hs1, by omega, hs2, by simpa using ih⟩
        simpa [true_runs_aux] using hres

lemma true_runs_spec (m : List Bool) : RunsSpec m 0 (true_runs m) := by
  have h := true_runs_aux_spec m m 0 none rfl (by omega)
    (fun _ => Or.inl rfl) (fun s hs => by cases hs)
  simpa [true_runs] using h

lemma sliceN_split (l : List ℚ) (a b b' : Nat) (h1 : a ≤ b) (h2 : b ≤ b') :
    sliceN l a b' = sliceN l a b ++ sliceN l b b' := by
  rw [sliceN, sliceN, sliceN]
  rw [show b' - a = (b - a) + (b' - b) from by omega, List.take_add]
  have hd : List.drop (b - a) (List.drop a l) = List.drop b l := by
    rw [List.drop_drop]
    congr 1
    omega
  rw [hd]

lemma foldl_absmax_init_le (y : List ℚ) :
    ∀ A : ℚ, A ≤ y.foldl (fun m x => max m |x|) A := by
  induction y with
  | nil => intro A; exact le_refl A
  | cons c y' ih =>
    intro A
    calc A ≤ max A |c| := le_max_left _ _
    _ ≤ y'.foldl (fun m x => max m |x|) (max A |c|) := ih _

lemma absMaxQ_prefix_le (x y : List ℚ) : absMaxQ x ≤ absMaxQ (x ++ y) := by
  rw [absMaxQ, absMaxQ, List.foldl_append]
  exact foldl_absmax_init_le y _

lemma eq_dropLast_append_of_getLast? {α : Type} (l : List α) (a : α)
    (h : l.getLast? = some a) : l = l.dropLast ++ [a] := by
  have hne : l ≠ [] := by
    intro he; subst he; simp at h
  have hdl := List.dropLast_append_getLast hne
  rw [List.getLast?_eq_getLast l hne] at h
  have ha : l.getLast hne = a := Option.some.inj h
  rw [← ha]
  exact hdl.symm

/-- Invariant maintained by the final selection loop of `select_windows`
over its `final_windows` accumulator: windows are non-degenerate, sorted
with a gap of at least two samples, pass the noise-floor test, and — when
every sample of the window is valid in the mask (i.e. the window was not
produced by merging across an invalidated sample) — pass the energy-ratio
test. -/
def AccInv (data synth : List ℚ) (noise : ℚ) (m : List Bool)
    (acc : List (Nat × Nat)) : Prop :=
  (∀ w ∈ acc, w.1 < w.2) ∧
  List.Chain' (fun u v : Nat × Nat => u.2 + 2 ≤ v.1) acc ∧
  (∀ w ∈ acc, 5 * noise ≤ absMaxQ (sliceN data w.1 w.2) ∧
    5 * noise ≤ absMaxQ (sliceN synth w.1 w.2)) ∧
  (∀ w ∈ acc, (∀ j, w.1 ≤ j → j < w.2 → m.getD j false = true) →
    max (energyQ (sliceN data w.1 w.2)) (energyQ (sliceN synth w.1 w.2)) ≤
    10 * min (energyQ (sliceN data w.1 w.2)) (energyQ (sliceN synth w.1 w.2)))

lemma window_accept_invariant (data synth : List ℚ) (noise : ℚ)
    (m : List Bool) (acc : List (Nat × Nat)) (w : Nat × Nat)
    (hacc : AccInv data synth noise m acc)
    (hbridge : ∀ lw, acc.getLast? = some lw → lw.2 + 1 ≤ w.1)
    (hw : w.1 < w.2)
    (hbound : w.1 = 0 ∨ m.getD (w.1 - 1) false = false)
    (hamp : ¬(absMaxQ (sliceN data w.1 w.2) < 5 * noise ∨
        absMaxQ (sliceN synth w.1 w.2) < 5 * noise))
    (hratio : ¬(10 * min (energyQ (sliceN data w.1 w.2))
        (energyQ (sliceN synth w.1 w.2)) <
      max (energyQ (sliceN data w.1 w.2)) (energyQ (sliceN synth w.1 w.2)))) :
    AccInv data synth noise m (window_accept_step acc w) ∧
    ∀ lw, (window_accept_step acc w).getLast? = some lw →
      lw.2 + 1 ≤ w.2 + 1 := by
  obtain ⟨hlt, hchain, hampacc, hratioacc⟩ := hacc
  push_neg at hamp
  rw [window_accept_step]
  cases hl : acc.getLast? with
  | none =>
    have hanil : acc = [] := List.getLast?_eq_none_iff.mp hl
    subst hanil
    refine ⟨⟨?_, ?_, ?_, ?_⟩, ?_⟩
    · intro v hv
      simp only [List.nil_append, List.mem_singleton] at hv
      subst hv; exact hw
    · simp [List.chain'_singleton]
    · intro v hv
      simp only [List.nil_append, List.mem_singleton] at hv
      subst hv; exact ⟨hamp.1, hamp.2⟩
    · intro v hv _
      simp only [List.nil_append, List.mem_singleton] at hv
      subst hv; exact le_of_not_lt (fun hc => hratio hc)
    · intro lw hlw
      simp only [List.nil_append, List.getLast?_singleton] at hlw
      cases hlw; omega
  | some lw =>
    have hacc_eq : acc = acc.dropLast ++ [lw] :=
      eq_dropLast_append_of_getLast? acc lw hl
    have hlw_mem : lw ∈ acc := List.mem_of_mem_getLast? hl
    have hlw_lt : lw.1 < lw.2 := hlt lw hlw_mem
    have hlw_bridge : lw.2 + 1 ≤ w.1 := hbridge lw hl
    have hchain_dec := List.chain'_append.mp (hacc_eq ▸ hchain)
    show AccInv data synth noise m
        (if lw.2 + 1 = w.1 then acc.dropLast ++ [(lw.1, w.2)]
         else acc ++ [w]) ∧
      ∀ lv, (if lw.2 + 1 = w.1 then acc.dropLast ++ [(lw.1, w.2)]
          else acc ++ [w]).getLast? = some lv → lv.2 + 1 ≤ w.2 + 1
    by_cases hmerge : lw.2 + 1 = w.1
    · rw [if_pos hmerge]
      have hlw1_le : lw.1 ≤ lw.2 := le_of_lt hlw_lt
      have hlw2_lt_w2 : lw.2 < w.2 := by omega
      have hmem_cases : ∀ v, v ∈ acc.dropLast ++ [(lw.1, w.2)] →
          v ∈ acc ∨ v = (lw.1, w.2) := by
        intro v hv
        rcases List.mem_append.mp hv with hv1 | hv1
        · exact Or.inl ((List.dropLast_sublist acc).mem hv1)
        · exact Or.inr (List.mem_singleton.mp hv1)
      refine ⟨⟨?_, ?_, ?_, ?_⟩, ?_⟩
      · intro v hv
        rcases hmem_cases v hv with hv1 | hv1
        · exact hlt v hv1
        · subst hv1; show lw.1 < w.2; omega
      · rw [List.chain'_append]
        refine ⟨hchain_dec.1, List.chain'_singleton _, ?_⟩
        intro x hx y hy
        simp only [List.head?_cons, Option.mem_def] at hy
        cases hy
        have := hchain_dec.2.2 x hx lw (by simp)
        show x.2 + 2 ≤ lw.1
        exact this
      · intro v hv
        rcases hmem_cases v hv with hv1 | hv1
        · exact hampacc v hv1
        · subst hv1
          have hsd : sliceN data lw.1 w.2 =
              sliceN data lw.1 lw.2 ++ sliceN data lw.2 w.2 :=
            sliceN_split data lw.1 lw.2 w.2 hlw1_le (le_of_lt hlw2_lt_w2)
          have hss : sliceN synth lw.1 w.2 =
              sliceN synth lw.1 lw.2 ++ sliceN synth lw.2 w.2 :=
            sliceN_split synth lw.1 lw.2 w.2 hlw1_le (le_of_lt hlw2_lt_w2)
          constructor
          · show 5 * noise ≤ absMaxQ (sliceN data lw.1 w.2)
            rw [hsd]
            exact le_trans (hampacc lw hlw_mem).1 (absMaxQ_prefix_le _ _)
          · show 5 * noise ≤ absMaxQ (sliceN synth lw.1 w.2)
            rw [hss]
            exact le_trans (hampacc lw hlw_mem).2 (absMaxQ_prefix_le _ _)
      · intro v hv hvalid
        rcases hmem_cases v hv with hv1 | hv1
        · exact hratioacc v hv1 (by
            intro j hj1 hj2
            exact hvalid j hj1 hj2)
        · subst hv1
          exfalso
          have hval := hvalid lw.2 (by show lw.1 ≤ lw.2; omega)
            (by show lw.2 < w.2; omega)
          have hfalse : m.getD lw.2 false = false := by
            rcases hbound with h0 | hprev
            · omega
            · have : w.1 - 1 = lw.2 := by omega
              rwa [this] at hprev
          rw [hval] at hfalse
          cases hfalse
      · intro lv hlv
        rw [List.getLast?_concat] at hlv
        cases hlv
        show w.2 + 1 ≤ w.2 + 1; omega
    · rw [if_neg hmerge]
      have hgap : lw.2 + 2 ≤ w.1 := by omega
      refine ⟨⟨?_, ?_, ?_, ?_⟩, ?_⟩
      · intro v hv
        rcases List.mem_append.mp hv with hv1 | hv1
        · exact hlt v hv1
        · rw [List.mem_singleton.mp hv1]; exact hw
      · rw [List.chain'_append]
        refine ⟨hchain, List.chain'_singleton _, ?_⟩
        intro x hx y hy
        simp only [List.head?_cons, Option.mem_def] at hy
        cases hy
        rw [Option.mem_def, hl] at hx
        cases hx
        exact hgap
      · intro v hv
        rcases List.mem_append.mp hv with hv1 | hv1
        · exact hampacc v hv1
        · rw [List.mem_singleton.mp hv1]
          exact ⟨hamp.1, hamp.2⟩
      · intro v hv _
        rcases List.mem_append.mp hv with hv1 | hv1
        · exact hratioacc v hv1 (by
            intro j hj1 hj2
            rename_i hvalid
            exact hvalid j hj1 hj2)
        · rw [List.mem_singleton.mp hv1]
          exact le_of_not_lt (fun hc => hratio hc)
      · intro lv hlv
        rw [List.getLast?_concat] at hlv
        cases hlv
        omega

lemma assemble_fold_invariant (data synth : List ℚ) (minlen : Int)
    (noise : ℚ) (m : List Bool) :
    ∀ (runs : List (Nat × Nat)) (lo : Nat) (acc : List (Nat × Nat)),
    RunsSpec m lo runs → AccInv data synth noise m acc →
    (∀ lw, acc.getLast? = some lw → lw.2 + 1 ≤ lo) →
    AccInv data synth noise m
      (runs.foldl (assemble_step data synth minlen noise) acc)
  | [], _, _, _, hacc, _ => hacc
  | w :: rest, lo, acc, hruns, hacc, hbridge => by
    obtain ⟨hlo, hw, hwlen, hbound, hrest⟩ := hruns
    rw [List.foldl_cons]
    show AccInv data synth noise m
      (rest.foldl (assemble_step data synth minlen noise)
        (assemble_step data synth minlen noise acc w))
    have hskip : ∀ lw, acc.getLast? = some lw → lw.2 + 1 ≤ w.2 + 1 := by
      intro lw hlw
      have := hbridge lw hlw
      omega
    rw [assemble_step]
    by_cases c1 : ((w.2 - w.1 : Nat) : Int) < minlen
    · rw [if_pos c1]
      exact assemble_fold_invariant data synth minlen noise m rest (w.2 + 1)
        acc hrest hacc hskip
    · rw [if_neg c1]
      by_cases c2 : absMaxQ (sliceN data w.1 w.2) < 5 * noise ∨
          absMaxQ (sliceN synth w.1 w.2) < 5 * noise
      · rw [if_pos c2]
        exact assemble_fold_invariant data synth minlen noise m rest
          (w.2 + 1) acc hrest hacc hskip
      · rw [if_neg c2]
        by_cases c3 : 10 * min (energyQ (sliceN data w.1 w.2))
            (energyQ (sliceN synth w.1 w.2)) <
            max (energyQ (sliceN data w.1 w.2))
              (energyQ (sliceN synth w.1 w.2))
        · rw [if_pos c3]
          exact assemble_fold_invariant data synth minlen noise m rest
            (w.2 + 1) acc hrest hacc hskip
        · rw [if_neg c3]
          have hbridge' : ∀ lw, acc.getLast? = some lw → lw.2 + 1 ≤ w.1 := by
            intro lw hlw
            have := hbridge lw hlw
            omega
          obtain ⟨hacc', hbridge''⟩ := window_accept_invariant data synth
            noise m acc w hacc hbridge' hw hbound c2 c3
          exact assemble_fold_invariant data synth minlen noise m rest
            (w.2 + 1) _ hrest hacc' hbridge''

lemma assemble_windows_invariant (data synth : List ℚ) (minlen : Int)
    (noise : ℚ) (m : List Bool) :
    AccInv data synth noise m
      (assemble_windows data synth minlen noise (true_runs m)) := by
  rw [assemble_windows]
  exact assemble_fold_invariant data synth minlen noise m (true_runs m) 0 []
    (true_runs_spec m) ⟨by simp, by simp, by simp, by simp⟩ (by simp)

/-- Invariant of the final selection loop of `select_windows_2`: windows
are non-degenerate, pass the energy-ratio test, and are sorted and
non-overlapping. -/
def AccInv2 (data synth : List ℚ) (acc : List (Nat × Nat)) : Prop :=
  (∀ w ∈ acc, w.1 < w.2 ∧
    max (energyQ (sliceN data w.1 w.2)) (energyQ (sliceN synth w.1 w.2)) ≤
    10 * min (energyQ (sliceN data w.1 w.2))
      (energyQ (sliceN synth w.1 w.2))) ∧
  List.Chain' (fun u v : Nat × Nat => u.2 ≤ v.1) acc

lemma assemble2_fold_invariant (data synth : List ℚ) (minlen : ℚ)
    (m : List Bool) :
    ∀ (runs : List (Nat × Nat)) (lo : Nat) (acc : List (Nat × Nat)),
    RunsSpec m lo runs → AccInv2 data synth acc →
    (∀ lw, acc.getLast? = some lw → lw.2 ≤ lo) →
    AccInv2 data synth (runs.foldl (assemble_step_2 data synth minlen) acc)
  | [], _, _, _, hacc, _ => hacc
  | w :: rest, lo, acc, hruns, hacc, hbridge => by
    obtain ⟨hlo, hw, hwlen, _, hrest⟩ := hruns
    obtain ⟨hall, hchain⟩ := hacc
    rw [List.foldl_cons]
    have hskip : ∀ lw, acc.getLast? = some lw → lw.2 ≤ w.2 + 1 := by
      intro lw hlw
      have := hbridge lw hlw
      omega
    rw [assemble_step_2]
    by_cases c1 : ((w.2 - w.1 : Nat) : ℚ) < minlen
    · rw [if_pos c1]
      exact assemble2_fold_invariant data synth minlen m rest (w.2 + 1) acc
        hrest ⟨hall, hchain⟩ hskip
    · rw [if_neg c1]
      by_cases c2 : 10 * min (energyQ (sliceN data w.1 w.2))
          (energyQ (sliceN synth w.1 w.2)) <
          max (energyQ (sliceN data w.1 w.2))
            (energyQ (sliceN synth w.1 w.2))
      · rw [if_pos c2]
        exact assemble2_fold_invariant data synth minlen m rest (w.2 + 1) acc
          hrest ⟨hall, hchain⟩ hskip
      · rw [if_neg c2]
        have hacc' : AccInv2 data synth (acc ++ [w]) := by
          constructor
          · intro v hv
            rcases List.mem_append.mp hv with hv1 | hv1
            · exact hall v hv1
            · rw [List.mem_singleton.mp hv1]
              exact ⟨hw, le_of_not_lt (fun hc => c2 hc)⟩
          · rw [List.chain'_append]
            refine ⟨hchain, List.chain'_singleton _, ?_⟩
            intro x hx y hy
            simp only [List.head?_cons, Option.mem_def] at hy
            cases hy
            rw [Option.mem_def] at hx
            have := hbridge x hx
            show x.2 ≤ w.1
            omega
        have hbridge' : ∀ lw, (acc ++ [w]).getLast? = some lw →
            lw.2 ≤ w.2 + 1 := by
          intro lw hlw
          rw [List.getLast?_concat] at hlw
          cases hlw
          omega
        exact assemble2_fold_invariant data synth minlen m rest (w.2 + 1)
          (acc ++ [w]) hrest hacc' hbridge'

lemma assemble_windows_2_invariant (data synth : List ℚ) (minlen : ℚ)
    (m : List Bool) :
    AccInv2 data synth (assemble_windows_2 data synth minlen (true_runs m)) := by
  rw [assemble_windows_2]
  exact assemble2_fold_invariant data synth minlen m (true_runs m) 0 []
    (true_runs_spec m) ⟨by simp, by simp⟩ (by simp)

/-- Inversion of a successful `select_windows` call: the noise level, the
internal mask and the run list it went through, the produced window list,
and the fact that the returned data trace carries the two new metadata
entries while the synthetic trace is returned unchanged. -/
lemma select_windows_inv (dT sT : Trace) (fvi : Nat) (dp : ℚ)
    (ws : List (Nat × Nat)) (dT' sT' : Trace)
    (h : select_windows dT sT fvi dp = some (ws, dT', sT')) :
    ∃ noise mask r rs,
      npAbsMax (dT.data.take fvi) = some noise ∧
      select_windows_mask dT.data sT.data fvi = some mask ∧
      true_runs mask = r :: rs ∧
      ws = assemble_windows dT.data sT.data (pyRound (dp / sT.stats.delta))
        noise (r :: rs) ∧
      dT' = { dT with stats := { dT.stats with
        first_valid_index := some fvi, noise_level := some noise } } ∧
      sT' = sT := by
  rw [select_windows] at h
  cases hnoise : npAbsMax (dT.data.take fvi) with
  | none => rw [hnoise] at h; simp at h
  | some noise =>
    rw [hnoise, Option.some_bind] at h
    cases hmask : select_windows_mask dT.data sT.data fvi with
    | none => rw [hmask] at h; simp at h
    | some mask =>
      rw [hmask, Option.some_bind] at h
      cases hruns : true_runs mask with
      | nil => rw [hruns] at h; simp at h
      | cons r rs =>
        rw [hruns] at h
        simp only [Option.some.injEq, Prod.mk.injEq] at h
        exact ⟨noise, mask, r, rs, rfl, rfl, hruns, h.1.symm, h.2.1.symm,
          h.2.2.symm⟩

/-- Inversion of a successful `select_windows_2` call. -/
lemma select_windows_2_inv (dT sT : Trace) (ftt dkm dp : ℚ)
    (sts ccc : List (Option ℚ)) (ws : List (Nat × Nat)) (dT' sT' : Trace)
    (h : select_windows_2 dT sT ftt dkm dp sts ccc = some (ws, dT', sT')) :
    ∃ r rs,
      true_runs ((select_windows_2_mask sT.data.length sT.stats.delta ftt
        dkm dp sts ccc).map not) = r :: rs ∧
      ws = assemble_windows_2 dT.data sT.data (dp / sT.stats.delta * (1/2))
        (r :: rs) ∧
      dT' = dT ∧ sT' = sT := by
  rw [select_windows_2] at h
  cases hruns : true_runs ((select_windows_2_mask sT.data.length
      sT.stats.delta ftt dkm dp sts ccc).map not) with
  | nil => rw [hruns] at h; simp at h
  | cons r rs =>
    rw [hruns] at h
    simp only [Option.some.injEq, Prod.mk.injEq] at h
    exact ⟨r, rs, rfl, h.1.symm, h.2.1.symm, h.2.2.symm⟩

/-- C1: every window list produced by either assembler is sorted and
non-overlapping with `stop > start` for every window; in the extrema-based
variant (`select_windows`) no two consecutive returned windows are
separated by a gap of one sample or less — a run starting exactly one
sample after the previous accepted window's stop is merged into it instead
of appended. -/
theorem C1_windows_sorted_disjoint :
    (∀ (dT sT : Trace) (fvi : Nat) (dp : ℚ) (ws : List (Nat × Nat))
      (dT' sT' : Trace),
      select_windows dT sT fvi dp = some (ws, dT', sT') →
      (∀ w ∈ ws, w.1 < w.2) ∧
      List.Chain' (fun u v : Nat × Nat => u.2 + 2 ≤ v.1) ws) ∧
    (∀ (dT sT : Trace) (ftt dkm dp : ℚ) (sts ccc : List (Option ℚ))
      (ws : List (Nat × Nat)) (dT' sT' : Trace),
      select_windows_2 dT sT ftt dkm dp sts ccc = some (ws, dT', sT') →
      (∀ w ∈ ws, w.1 < w.2) ∧
      List.Chain' (fun u v : Nat × Nat => u.2 ≤ v.1) ws) := by
  constructor
  · intro dT sT fvi dp ws dT' sT' h
    obtain ⟨noise, mask, r, rs, hnoise, hmask, hruns, hws, _, _⟩ :=
      select_windows_inv dT sT fvi dp ws dT' sT' h
    have hinv := assemble_windows_invariant dT.data sT.data
      (pyRound (dp / sT.stats.delta)) noise mask
    rw [hruns] at hinv
    rw [hws]
    exact ⟨hinv.1, hinv.2.1⟩
  · intro dT sT ftt dkm dp sts ccc ws dT' sT' h
    obtain ⟨r, rs, hruns, hws, _, _⟩ :=
      select_windows_2_inv dT sT ftt dkm dp sts ccc ws dT' sT' h
    have hinv := assemble_windows_2_invariant dT.data sT.data
      (dp / sT.stats.delta * (1/2)) ((select_windows_2_mask sT.data.length
        sT.stats.delta ftt dkm dp sts ccc).map not)
    rw [hruns] at hinv
    rw [hws]
    exact ⟨fun w hw => (hinv.1 w hw).1, hinv.2⟩

/-- C1 (witness): the two concrete runs — `select_windows` producing
`[(5, 25)]` and `select_windows_2` producing `[(0, 8)]` — with the sorting
and gap properties instantiated. -/
theorem C1_windows_sorted_disjoint_witness :
    ((∀ w ∈ [((5 : Nat), (25 : Nat))], w.1 < w.2) ∧
      List.Chain' (fun u v : Nat × Nat => u.2 + 2 ≤ v.1) [(5, 25)]) ∧
    ((∀ w ∈ [((0 : Nat), (8 : Nat))], w.1 < w.2) ∧
      List.Chain' (fun u v : Nat × Nat => u.2 ≤ v.1) [(0, 8)]) :=
  ⟨C1_windows_sorted_disjoint.1 exDataTrace exSynthTrace 1 2 [(5, 25)]
      exDataTraceM exSynthTrace (by decide),
   C1_windows_sorted_disjoint.2 exDataTrace exSynthTrace 1 16 2
      (List.replicate 40 none) (List.replicate 40 none) [(0, 8)]
      exDataTrace exSynthTrace (by decide)⟩

/-- C2 (counterexample): on the concrete traces `exDataTrace` /
`exSynthTrace`, `select_windows` merges the two adjacent accepted runs
`[5,13)` and `[14,25)` into the single output window `(5, 25)`, whose data
energy (2945, dominated by the sample value −50 at the bridged gap index
13) strictly exceeds 10 times its synthetic energy (86) — so a window whose
energies differ by more than a factor of 10 does appear in the output. -/
theorem C2_energy_ratio_cex :
    select_windows exDataTrace exSynthTrace 1 2 =
      some ([(5, 25)], exDataTraceM, exSynthTrace) ∧
    10 * min (energyQ (sliceN exDataTrace.data 5 25))
        (energyQ (sliceN exSynthTrace.data 5 25)) <
      max (energyQ (sliceN exDataTrace.data 5 25))
        (energyQ (sliceN exSynthTrace.data 5 25)) := by
  constructor
  · decide
  · decide

/-- C2 (amended): every window returned by `select_windows_2` satisfies the
10× energy-ratio bound.  In `select_windows` the bound holds for every
returned window all of whose samples are valid in the internal mask;
a merged window always bridges an invalidated sample, and only such merged
windows can violate the bound. -/
theorem C2_energy_ratio_amended :
    (∀ (dT sT : Trace) (ftt dkm dp : ℚ) (sts ccc : List (Option ℚ))
      (ws : List (Nat × Nat)) (dT' sT' : Trace),
      select_windows_2 dT sT ftt dkm dp sts ccc = some (ws, dT', sT') →
      ∀ w ∈ ws,
        max (energyQ (sliceN dT.data w.1 w.2))
            (energyQ (sliceN sT.data w.1 w.2)) ≤
        10 * min (energyQ (sliceN dT.data w.1 w.2))
            (energyQ (sliceN sT.data w.1 w.2))) ∧
    (∀ (dT sT : Trace) (fvi : Nat) (dp : ℚ) (ws : List (Nat × Nat))
      (dT' sT' : Trace) (mask : List Bool),
      select_windows dT sT fvi dp = some (ws, dT', sT') →
      select_windows_mask dT.data sT.data fvi = some mask →
      ∀ w ∈ ws, (∀ j, w.1 ≤ j → j < w.2 → mask.getD j false = true) →
        max (energyQ (sliceN dT.data w.1 w.2))
            (energyQ (sliceN sT.data w.1 w.2)) ≤
        10 * min (energyQ (sliceN dT.data w.1 w.2))
            (energyQ (sliceN sT.data w.1 w.2))) := by
  constructor
  · intro dT sT ftt dkm dp sts ccc ws dT' sT' h w hw
    obtain ⟨r, rs, hruns, hws, _, _⟩ :=
      select_windows_2_inv dT sT ftt dkm dp sts ccc ws dT' sT' h
    have hinv := assemble_windows_2_invariant dT.data sT.data
      (dp / sT.stats.delta * (1/2)) ((select_windows_2_mask sT.data.length
        sT.stats.delta ftt dkm dp sts ccc).map not)
    rw [hruns] at hinv
    rw [hws] at hw
    exact (hinv.1 w hw).2
  · intro dT sT fvi dp ws dT' sT' mask h hmask w hw hvalid
    obtain ⟨noise, mask', r, rs, hnoise, hmask', hruns, hws, _, _⟩ :=
      select_windows_inv dT sT fvi dp ws dT' sT' h
    have hmm : mask' = mask := by
      rw [hmask] at hmask'
      exact (Option.some.inj hmask').symm
    subst hmm
    have hinv := assemble_windows_invariant dT.data sT.data
      (pyRound (dp / sT.stats.delta)) noise mask'
    rw [hruns] at hinv
    rw [hws] at hw
    exact hinv.2.2.2 w hw hvalid

/-- C2 (witness): the amended bound instantiated on the two concrete runs;
the `select_windows` window `(5, 25)` contains the invalidated bridging
sample 13, so the all-valid hypothesis of the second part is vacuous there,
while the `select_windows_2` window `(0, 8)` satisfies the bound. -/
theorem C2_energy_ratio_witness :
    (∀ w ∈ [((0 : Nat), (8 : Nat))],
      max (energyQ (sliceN exDataTrace.data w.1 w.2))
          (energyQ (sliceN exSynthTrace.data w.1 w.2)) ≤
      10 * min (energyQ (sliceN exDataTrace.data w.1 w.2))
          (energyQ (sliceN exSynthTrace.data w.1 w.2))) ∧
    (∀ w ∈ [((5 : Nat), (25 : Nat))],
      (∀ j, w.1 ≤ j → j < w.2 →
        ([false, false, false, false, false, true, true, true, true, true,
          true, true, true, false, true, true, true, true, true, true, true,
          true, true, true, true, false, false, false, false, false, false,
          false, false, false, false, false, false, false, false,
          false] : List Bool).getD j false = true) →
      max (energyQ (sliceN exDataTrace.data w.1 w.2))
          (energyQ (sliceN exSynthTrace.data w.1 w.2)) ≤
      10 * min (energyQ (sliceN exDataTrace.data w.1 w.2))
          (energyQ (sliceN exSynthTrace.data w.1 w.2))) :=
  ⟨C2_energy_ratio_amended.1 exDataTrace exSynthTrace 1 16 2
      (List.replicate 40 none) (List.replicate 40 none) [(0, 8)]
      exDataTrace exSynthTrace (by decide),
   C2_energy_ratio_amended.2 exDataTrace exSynthTrace 1 2 [(5, 25)]
      exDataTraceM exSynthTrace
      [false, false, false, false, false, true, true, true, true, true,
        true, true, true, false, true, true, true, true, true, true, true,
        true, true, true, true, false, false, false, false, false, false,
        false, false, false, false, false, false, false, false, false]
      (by decide) (by decide)⟩

/-- C3: every window in the output of `select_windows` has peak absolute
amplitude at least `5 ×` the noise level in both signals, where the noise
level is the maximum absolute amplitude of the data before the first-valid
index. -/
theorem C3_noise_floor (dT sT : Trace) (fvi : Nat) (dp : ℚ)
    (ws : List (Nat × Nat)) (dT' sT' : Trace)
    (h : select_windows dT sT fvi dp = some (ws, dT', sT')) :
    ∀ w ∈ ws,
      5 * (npAbsMax (dT.data.take fvi)).getD 0 ≤
        absMaxQ (sliceN dT.data w.1 w.2) ∧
      5 * (npAbsMax (dT.data.take fvi)).getD 0 ≤
        absMaxQ (sliceN sT.data w.1 w.2) := by
  obtain ⟨noise, mask, r, rs, hnoise, hmask, hruns, hws, _, _⟩ :=
    select_windows_inv dT sT fvi dp ws dT' sT' h
  have hinv := assemble_windows_invariant dT.data sT.data
    (pyRound (dp / sT.stats.delta)) noise mask
  rw [hruns] at hinv
  intro w hw
  rw [hws] at hw
  rw [hnoise, Option.getD_some]
  exact hinv.2.2.1 w hw

/-- C3 (witness): the noise-floor bound instantiated on the concrete
`select_windows` run (noise level 0, window `(5, 25)`). -/
theorem C3_noise_floor_witness :
    5 * (npAbsMax (exDataTrace.data.take 1)).getD 0 ≤
      absMaxQ (sliceN exDataTrace.data 5 25) ∧
    5 * (npAbsMax (exDataTrace.data.take 1)).getD 0 ≤
      absMaxQ (sliceN exSynthTrace.data 5 25) :=
  C3_noise_floor exDataTrace exSynthTrace 1 2 [(5, 25)] exDataTraceM
    exSynthTrace (by decide) (5, 25) (by decide)

/-- C8 (counterexample): `select_windows` does not leave its inputs
unchanged — on the concrete run it returns a data trace whose metadata
carries the newly stored `first_valid_index` and `noise_level`, so the
returned data trace differs from the input one. -/
theorem C8_trace_mutation_cex :
    ∃ ws dT' sT', select_windows exDataTrace exSynthTrace 1 2 =
      some (ws, dT', sT') ∧ dT' ≠ exDataTrace :=
  ⟨[(5, 25)], exDataTraceM, exSynthTrace, by decide, by decide⟩

/-- C8 (amended): `select_windows_2` returns both traces unchanged;
`select_windows` returns the synthetic trace unchanged and the data trace
with unchanged samples and sample spacing, but with `first_valid_index` and
`noise_level` written into its metadata (the source mutates
`data_trace.stats` in place). -/
theorem C8_trace_mutation_amended :
    (∀ (dT sT : Trace) (ftt dkm dp : ℚ) (sts ccc : List (Option ℚ))
      (ws : List (Nat × Nat)) (dT' sT' : Trace),
      select_windows_2 dT sT ftt dkm dp sts ccc = some (ws, dT', sT') →
      dT' = dT ∧ sT' = sT) ∧
    (∀ (dT sT : Trace) (fvi : Nat) (dp : ℚ) (ws : List (Nat × Nat))
      (dT' sT' : Trace),
      select_windows dT sT fvi dp = some (ws, dT', sT') →
      sT' = sT ∧ dT'.data = dT.data ∧ dT'.stats.delta = dT.stats.delta ∧
      dT'.stats.first_valid_index = some fvi ∧
      dT'.stats.noise_level = npAbsMax (dT.data.take fvi)) := by
  constructor
  · intro dT sT ftt dkm dp sts ccc ws dT' sT' h
    obtain ⟨r, rs, _, _, hdT, hsT⟩ :=
      select_windows_2_inv dT sT ftt dkm dp sts ccc ws dT' sT' h
    exact ⟨hdT, hsT⟩
  · intro dT sT fvi dp ws dT' sT' h
    obtain ⟨noise, mask, r, rs, hnoise, _, _, _, hdT, hsT⟩ :=
      select_windows_inv dT sT fvi dp ws dT' sT' h
    subst hdT
    exact ⟨hsT, rfl, rfl, rfl, hnoise.symm⟩

/-- C8 (witness): both amended statements instantiated on the concrete
runs. -/
theorem C8_trace_mutation_witness :
    (exDataTrace = exDataTrace ∧ exSynthTrace = exSynthTrace) ∧
    (exSynthTrace = exSynthTrace ∧ exDataTraceM.data = exDataTrace.data ∧
      exDataTraceM.stats.delta = exDataTrace.stats.delta ∧
      exDataTraceM.stats.first_valid_index = some 1 ∧
      exDataTraceM.stats.noise_level =
        npAbsMax (exDataTrace.data.take 1)) :=
  ⟨C8_trace_mutation_amended.1 exDataTrace exSynthTrace 1 16 2
      (List.replicate 40 none) (List.replicate 40 none) [(0, 8)]
      exDataTrace exSynthTrace (by decide),
   C8_trace_mutation_amended.2 exDataTrace exSynthTrace 1 2 [(5, 25)]
      exDataTraceM exSynthTrace (by decide)⟩
